import Mathlib

/-!
Verification of the `pysync` delta file synchroniser.

Shallow embedding of the core modules:
* `rolling_checksum.py` — the Adler-style rolling weak checksum (`RollingChecksum`);
* `strategy.py` — `FileCopierStrategy` and `DeltaStrategy` (block index, delta
  reconstruction loop, per-file stats);
* `sync.py` — `DeltaSynchronizer`, a second copy of the delta engine used by the CLI;
* `stats.py` — `SyncStats`.

Byte buffers are `List Nat` (Python `bytes`/`mmap` slices; values are bytes in the
running program, but nothing below needs the `< 256` bound, so buffers are kept
fully general).  Python integers are `Int` where signed wrap-around matters
(checksum state) and `Nat` where the source only ever handles sizes and offsets.
Python `%` on a positive modulus agrees with `Int.emod`.  `while` loops become
fuel-indexed structural recursion; every caller passes fuel that is proved
sufficient, so the fuel-out branches are unreachable in the proofs.

The MD5 strong digest is not re-implemented bit-for-bit: the development is
parameterised by an arbitrary digest function `md5 : List Nat → List Nat`, and
theorems that depend on the absence of strong-hash collisions assume
`Function.Injective md5` (the spec's "strong digest uniquely identifies block
content").  Witnesses instantiate `md5 := id`.
-/

namespace Pysync

/-- Python slice `buffer[a:b]` on a byte buffer (non-negative bounds, as in all
call sites of the program; out-of-range bounds truncate, as in Python). -/
def slice (l : List Nat) (a b : Nat) : List Nat := (l.drop a).take (b - a)

/-- `RollingChecksum._MOD = 1 << 16`. -/
def MOD : Int := 65536

/-- The mutable state of `RollingChecksum`: `block_size`, `s1`, `s2`.
Python integers; `s1` and `s2` are always reduced modulo `2^16`. -/
structure RollingChecksum where
  block_size : Int
  s1 : Int
  s2 : Int
  deriving Repr, DecidableEq

/-- `sum(block)` as a Python integer. -/
def byteSum : List Nat → Int
  | [] => 0
  | b :: t => (b : Int) + byteSum t

/-- `sum((block_size - idx + 1) * byte for idx, byte in enumerate(block, start=i))`:
the weighted sum in `RollingChecksum.__init__`, with explicit start index `i`. -/
def weightedSum (block_size : Int) : Int → List Nat → Int
  | _, [] => 0
  | i, b :: t => (block_size - i + 1) * (b : Int) + weightedSum block_size (i + 1) t

/-- `RollingChecksum.__init__(block, block_size)`. -/
def RollingChecksum.init (block : List Nat) (block_size : Int) : RollingChecksum :=
  { block_size := block_size
    s1 := byteSum block % MOD
    s2 := weightedSum block_size 1 block % MOD }

/-- `RollingChecksum.digest`: `(s2 << 16) | s1`.  `s1, s2 ∈ [0, 2^16)` on every
state the program constructs, so the `Int.toNat` coercions are lossless. -/
def RollingChecksum.digest (cs : RollingChecksum) : Nat :=
  (cs.s2.toNat <<< 16) ||| cs.s1.toNat

/-- `RollingChecksum.roll(out_byte, in_byte)`; note Python assigns `s1` first and
the `s2` update reads the new `s1`. -/
def RollingChecksum.roll (cs : RollingChecksum) (out_byte in_byte : Nat) : RollingChecksum :=
  let s1 := (cs.s1 - (out_byte : Int) + (in_byte : Int)) % MOD
  { cs with s1 := s1, s2 := (cs.s2 - cs.block_size * (out_byte : Int) + s1) % MOD }

/-- `k` successive `roll` calls sliding a window of length `L` over `buf`,
starting from offset `0`: call `j` (for `j = 0 .. k-1`) rolls out `buf[j]` and
rolls in `buf[j + L]`. -/
def rollFrom (cs : RollingChecksum) (buf : List Nat) (L : Nat) : Nat → RollingChecksum
  | 0 => cs
  | k + 1 => (rollFrom cs buf L k).roll (buf.getD k 0) (buf.getD (k + L) 0)

/-- `SyncStats` (`stats.py`): per-file byte accounting. -/
structure SyncStats where
  total_bytes : Nat
  bytes_transferred : Nat
  bytes_reused : Nat
  deriving Repr, DecidableEq

/-- `SyncStats.bytes_saved`: `max(total_bytes - bytes_transferred, 0)`.
On `Nat` the truncated subtraction already clamps at zero, exactly like the
Python `max` does for signed integers. -/
def SyncStats.bytes_saved (s : SyncStats) : Nat :=
  max (s.total_bytes - s.bytes_transferred) 0

/-- One write performed on the temp file: a literal source span or a copy of an
indexed destination block.  Only the bytes matter for reconstruction. -/
inductive DeltaOp where
  | literal (bytes : List Nat)
  | copy (bytes : List Nat)
  deriving Repr, DecidableEq

def DeltaOp.bytes : DeltaOp → List Nat
  | .literal bs => bs
  | .copy bs => bs

/-- The byte content of the temp file: the concatenation of all writes. -/
def opsBytes (ops : List DeltaOp) : List Nat := (ops.map DeltaOp.bytes).flatten

/-- Total length of the literal spans among the emitted operations. -/
def litLen : List DeltaOp → Nat
  | [] => 0
  | .literal bs :: rest => bs.length + litLen rest
  | .copy _ :: rest => litLen rest

/-- What `sync_file` can find at the destination path: a regular file with some
bytes, or a symbolic link (whose target is irrelevant, since both strategies
refuse before touching it).  `Option FsNode` adds the absent case. -/
inductive FsNode where
  | file (bytes : List Nat)
  | symlink
  deriving Repr, DecidableEq

/-- Destination-side state visible to one `sync_file` call: the destination
path's node and the stats-ledger entry recorded for it (`None` before the first
successful call). -/
structure FsState where
  node : Option FsNode
  stats : Option SyncStats
  deriving Repr, DecidableEq

namespace strategy

/-- `_BlockSignature`: strong digest, block offset and block length.  The weak
checksum is the key it is filed under in the index. -/
structure BlockSignature where
  strong : List Nat
  offset : Nat
  length : Nat
  deriving Repr, DecidableEq

/-- `_LITERAL_CHUNK_SIZE = 1 << 20`. -/
def LITERAL_CHUNK_SIZE : Nat := 1 <<< 20

/-- The chunk loop of `DeltaStrategy._write_slice`: writes `buffer[start:stop]`
in `LITERAL_CHUNK_SIZE` pieces, returning the bytes written and the count the
method returns.  Fuel-indexed; `stop - start` chunks of at least one byte each
make `stop - start` fuel sufficient. -/
def writeSliceChunks (buffer : List Nat) : Nat → Nat → Nat → List Nat × Nat
  | _, _, 0 => ([], 0)
  | start, stop, fuel + 1 =>
    if start < stop then
      let chunk_end := min (start + LITERAL_CHUNK_SIZE) stop
      let rest := writeSliceChunks buffer chunk_end stop fuel
      (slice buffer start chunk_end ++ rest.1, (chunk_end - start) + rest.2)
    else ([], 0)

/-- `DeltaStrategy._write_slice(writer, buffer, start, end)`: the bytes written
to the stream and the returned byte count (`0` when `end <= start`). -/
def write_slice (buffer : List Nat) (start stop : Nat) : List Nat × Nat :=
  writeSliceChunks buffer start stop (stop - start)

/-- `DeltaStrategy._copy_block(writer, buffer, offset, length)`: the bytes the
copy directive writes (`end = offset + max(length, 0)`). -/
def copy_block (buffer : List Nat) (offset length : Nat) : List Nat :=
  (write_slice buffer offset (offset + max length 0)).1

/-- The `while` loop of `DeltaStrategy._index_destination_blocks`, fuel-indexed
over the remaining iterations (`offset` advances by `block_size ≥ 1` per step,
so `buffer.length + 1` fuel is always enough).  The index dict
`weak -> list of _BlockSignature` (insertion-ordered buckets, `setdefault`
append) is modelled as the insertion-ordered list of `(weak, signature)` pairs:
bucket lookup of `weak` followed by first-strong-match scan is exactly the
first match in this flat list with that weak key. -/
def indexBlocksFrom (md5 : List Nat → List Nat) (block_size : Nat) (buffer : List Nat) :
    Nat → Nat → List (Nat × BlockSignature)
  | _, 0 => []
  | offset, fuel + 1 =>
    if offset < buffer.length then
      let block := slice buffer offset (min (offset + block_size) buffer.length)
      if block = [] then []
      else
        ((RollingChecksum.init block (block.length : Int)).digest,
            ⟨md5 block, offset, block.length⟩)
          :: indexBlocksFrom md5 block_size buffer (offset + block_size) fuel
    else []

/-- `DeltaStrategy._index_destination_blocks(buffer)`. -/
def index_destination_blocks (md5 : List Nat → List Nat) (block_size : Nat)
    (buffer : List Nat) : List (Nat × BlockSignature) :=
  if buffer.length = 0 then []
  else indexBlocksFrom md5 block_size buffer 0 (buffer.length + 1)

/-- `DeltaStrategy._find_match(signatures, weak_checksum, window)` with the
strong digest of the window already computed: first signature filed under the
weak key whose strong digest matches. -/
def find_match (signatures : List (Nat × BlockSignature)) (weak_checksum : Nat)
    (strong : List Nat) : Option BlockSignature :=
  match signatures with
  | [] => none
  | (w, candidate) :: rest =>
    if w = weak_checksum ∧ candidate.strong = strong then some candidate
    else find_match rest weak_checksum strong

/-- The main `while idx + block_size <= src_len` loop of
`DeltaStrategy._write_delta`.  State: `idx`, `last_emitted`, the running
`literal_bytes` count and the rolling checksum; result: the writes performed,
the final `literal_bytes` and the final `last_emitted`.  Fuel-indexed; `idx`
strictly increases each iteration, so `src.length + 1` fuel is enough. -/
def deltaLoop (md5 : List Nat → List Nat) (block_size : Nat) (src dst : List Nat)
    (signatures : List (Nat × BlockSignature)) :
    Nat → Nat → Nat → RollingChecksum → Nat → List DeltaOp × Nat × Nat
  | _, last_emitted, literal_bytes, _, 0 => ([], literal_bytes, last_emitted)
  | idx, last_emitted, literal_bytes, checksum, fuel + 1 =>
    if idx + block_size ≤ src.length then
      match find_match signatures checksum.digest (md5 (slice src idx (idx + block_size))) with
      | some m =>
        let emitted :=
          if last_emitted < idx then
            [DeltaOp.literal (write_slice src last_emitted idx).1]
          else []
        let literal_bytes' :=
          if last_emitted < idx then literal_bytes + (write_slice src last_emitted idx).2
          else literal_bytes
        let emitted := emitted ++ [DeltaOp.copy (copy_block dst m.offset m.length)]
        let idx' := idx + block_size
        if idx' + block_size ≤ src.length then
          let checksum' := RollingChecksum.init (slice src idx' (idx' + block_size))
            (block_size : Int)
          let rest := deltaLoop md5 block_size src dst signatures idx' idx' literal_bytes'
            checksum' fuel
          (emitted ++ rest.1, rest.2)
        else
          (emitted, literal_bytes', idx')
      | none =>
        if src.length ≤ idx + block_size then ([], literal_bytes, last_emitted)
        else
          deltaLoop md5 block_size src dst signatures (idx + 1) last_emitted literal_bytes
            (checksum.roll (src.getD idx 0) (src.getD (idx + block_size) 0)) fuel
    else ([], literal_bytes, last_emitted)

/-- `DeltaStrategy._write_delta(destination, src_buf, dst_buf)`: the sequence of
writes that lands in the temp file, paired with the returned `literal_bytes`. -/
def write_delta (md5 : List Nat → List Nat) (block_size : Nat) (src dst : List Nat) :
    List DeltaOp × Nat :=
  let signatures := index_destination_blocks md5 block_size dst
  if signatures = [] ∨ src.length < block_size then
    let ws := write_slice src 0 src.length
    ([DeltaOp.literal ws.1], ws.2)
  else
    let checksum := RollingChecksum.init (slice src 0 block_size) (block_size : Int)
    let res := deltaLoop md5 block_size src dst signatures 0 0 0 checksum (src.length + 1)
    if res.2.2 < src.length then
      let ws := write_slice src res.2.2 src.length
      (res.1 ++ [DeltaOp.literal ws.1], res.2.1 + ws.2)
    else (res.1, res.2.1)

/-- `DeltaStrategy.sync_file(source, destination)` on the destination node.
`SyncError` carries only a message, so failure is the bare `error` case.  On
success the result is the destination's final bytes (after the atomic
`os.replace`) and the `SyncStats` recorded for the resolved destination path.
The constructor guarantees `block_size > 0`. -/
def DeltaStrategy.sync_file (md5 : List Nat → List Nat) (block_size : Nat)
    (src : List Nat) (destination : Option FsNode) :
    Except Unit (List Nat × SyncStats) :=
  match destination with
  | some .symlink => .error ()
  | none =>
    -- shutil.copy2: byte-for-byte copy, then stats (size, size, 0)
    .ok (src, ⟨src.length, src.length, 0⟩)
  | some (.file d) =>
    if src.length = 0 then
      -- truncate the destination (write_bytes(b'') when it was non-empty)
      .ok ([], ⟨0, 0, 0⟩)
    else if src = d then
      -- filecmp.cmp(..., shallow=False): contents equal, only metadata refreshed
      .ok (d, ⟨src.length, 0, src.length⟩)
    else
      -- the mmap re-check `src_len == 0` is dead here: the size was already tested
      let res := write_delta md5 block_size src d
      .ok (opsBytes res.1, ⟨src.length, res.2, max (src.length - res.2) 0⟩)

/-- One `DeltaStrategy.sync_file` call acting on the destination-side state:
on error the destination and the stats ledger are untouched, on success the
destination holds the reconstructed bytes and the ledger entry is overwritten. -/
def DeltaStrategy.run (md5 : List Nat → List Nat) (block_size : Nat)
    (src : List Nat) (st : FsState) : FsState :=
  match DeltaStrategy.sync_file md5 block_size src st.node with
  | .error _ => st
  | .ok (bytes, s) => ⟨some (.file bytes), some s⟩

/-- `FileCopierStrategy.sync_file`: refuse symlinks, else `shutil.copy2` only
when the content differs.  Result: the destination's final bytes. -/
def FileCopierStrategy.sync_file (src : List Nat) (destination : Option FsNode) :
    Except Unit (List Nat) :=
  match destination with
  | some .symlink => .error ()
  | none => .ok src
  | some (.file d) => if src = d then .ok d else .ok src

/-- Number of blocks the index holds over a buffer of length `len`:
`⌈len / block_size⌉`. -/
def numBlocks (block_size len : Nat) : Nat := (len + block_size - 1) / block_size

/-- The signature entry the index stores for the block starting at `offset`. -/
def sigAt (md5 : List Nat → List Nat) (block_size : Nat) (buffer : List Nat)
    (offset : Nat) : Nat × BlockSignature :=
  let block := slice buffer offset (offset + block_size)
  ((RollingChecksum.init block (block.length : Int)).digest,
    ⟨md5 block, offset, block.length⟩)

/-- Spec-side closed form of the index: one signature per block offset
`0, B, 2B, …`. -/
def indexSpec (md5 : List Nat → List Nat) (block_size : Nat) (buffer : List Nat) :
    List (Nat × BlockSignature) :=
  (List.range (numBlocks block_size buffer.length)).map
    (fun i => sigAt md5 block_size buffer (i * block_size))

/-- Replace a signature's strong digest by its image under `md5`. -/
def mapStrong (md5 : List Nat → List Nat) (s : BlockSignature) : BlockSignature :=
  ⟨md5 s.strong, s.offset, s.length⟩

/-- One `tmp.write(...)` call under a write budget: fails when exhausted. -/
def faultyWrite (budget : Nat) : Except Unit Nat :=
  match budget with
  | 0 => .error ()
  | b + 1 => .ok b

/-- The chunk loop of `_write_slice` with fault injection; returns the bytes
written, the count, and the remaining budget. -/
def writeSliceChunksF (buffer : List Nat) :
    Nat → Nat → Nat → Nat → Except Unit (List Nat × Nat × Nat)
  | _, _, budget, 0 => .ok ([], 0, budget)
  | start, stop, budget, fuel + 1 =>
    if start < stop then
      let chunk_end := min (start + LITERAL_CHUNK_SIZE) stop
      match faultyWrite budget with
      | .error _ => .error ()
      | .ok b =>
        match writeSliceChunksF buffer chunk_end stop b fuel with
        | .error _ => .error ()
        | .ok (rest, n, b') =>
          .ok (slice buffer start chunk_end ++ rest, (chunk_end - start) + n, b')
    else .ok ([], 0, budget)

/-- `_write_slice` with fault injection. -/
def write_sliceF (buffer : List Nat) (start stop budget : Nat) :
    Except Unit (List Nat × Nat × Nat) :=
  writeSliceChunksF buffer start stop budget (stop - start)

/-- `_copy_block` with fault injection. -/
def copy_blockF (buffer : List Nat) (offset length budget : Nat) :
    Except Unit (List Nat × Nat) :=
  match write_sliceF buffer offset (offset + max length 0) budget with
  | .error _ => .error ()
  | .ok (bytes, _, b) => .ok (bytes, b)

/-- The main loop of `_write_delta` with fault injection; returns the bytes
written to the temp file, `literal_bytes`, `last_emitted` and the remaining
budget, or the propagated exception. -/
def deltaLoopF (md5 : List Nat → List Nat) (block_size : Nat) (src dst : List Nat)
    (signatures : List (Nat × BlockSignature)) :
    Nat → Nat → Nat → RollingChecksum → Nat → Nat → Except Unit (List Nat × Nat × Nat × Nat)
  | _, last_emitted, literal_bytes, _, budget, 0 =>
    .ok ([], literal_bytes, last_emitted, budget)
  | idx, last_emitted, literal_bytes, checksum, budget, fuel + 1 =>
    if idx + block_size ≤ src.length then
      match find_match signatures checksum.digest (md5 (slice src idx (idx + block_size))) with
      | some m =>
        match
          (if last_emitted < idx then
            write_sliceF src last_emitted idx budget
          else .ok ([], 0, budget)) with
        | .error _ => .error ()
        | .ok (litBytes, litCount, b1) =>
          match copy_blockF dst m.offset m.length b1 with
          | .error _ => .error ()
          | .ok (copyBytes, b2) =>
            let literal_bytes' := literal_bytes + litCount
            let idx' := idx + block_size
            if idx' + block_size ≤ src.length then
              let checksum' := RollingChecksum.init (slice src idx' (idx' + block_size))
                (block_size : Int)
              match deltaLoopF md5 block_size src dst signatures idx' idx' literal_bytes'
                  checksum' b2 fuel with
              | .error _ => .error ()
              | .ok (rest, litF, leF, b3) =>
                .ok (litBytes ++ copyBytes ++ rest, litF, leF, b3)
            else
              .ok (litBytes ++ copyBytes, literal_bytes', idx', b2)
      | none =>
        if src.length ≤ idx + block_size then
          .ok ([], literal_bytes, last_emitted, budget)
        else
          deltaLoopF md5 block_size src dst signatures (idx + 1) last_emitted literal_bytes
            (checksum.roll (src.getD idx 0) (src.getD (idx + block_size) 0)) budget fuel
    else .ok ([], literal_bytes, last_emitted, budget)

/-- The observable state of the temp file and the original destination after
`_write_delta` returns or raises. -/
structure TempOutcome where
  raised : Bool
  tempExists : Bool
  tempBytes : List Nat
  literal_bytes : Nat
  deriving Repr, DecidableEq

/-- The `try` block of `_write_delta` with fault injection: everything written
to the temp file, or the first exception. -/
def write_deltaRaw (md5 : List Nat → List Nat) (block_size : Nat) (src dst : List Nat)
    (budget : Nat) : Except Unit (List Nat × Nat) :=
  let signatures := index_destination_blocks md5 block_size dst
  if signatures = [] ∨ src.length < block_size then
    match write_sliceF src 0 src.length budget with
    | .error _ => .error ()
    | .ok (bytes, count, _) => .ok (bytes, count)
  else
    let checksum := RollingChecksum.init (slice src 0 block_size) (block_size : Int)
    match deltaLoopF md5 block_size src dst signatures 0 0 0 checksum budget
        (src.length + 1) with
    | .error _ => .error ()
    | .ok (bytes, lit, le, b) =>
      if le < src.length then
        match write_sliceF src le src.length b with
        | .error _ => .error ()
        | .ok (tail, tailCount, _) => .ok (bytes ++ tail, lit + tailCount)
      else .ok (bytes, lit)

/-- `_write_delta` with fault injection, including its `except` handler: on any
write failure the temp file is unlinked before the exception propagates. -/
def write_deltaF (md5 : List Nat → List Nat) (block_size : Nat) (src dst : List Nat)
    (budget : Nat) : TempOutcome :=
  match write_deltaRaw md5 block_size src dst budget with
  | .ok (bytes, lit) => ⟨false, true, bytes, lit⟩
  | .error _ => ⟨true, false, [], 0⟩

/-- Destination-side observable state after the delta path of `sync_file`. -/
structure SyncOutcome where
  raised : Bool
  destination : List Nat
  tempExists : Bool
  deriving Repr, DecidableEq

/-- The delta path of `sync_file` (existing, non-equal destination) with fault
injection in the temp-file writes and in the final `os.replace`:
`_write_delta` failures propagate with the temp file already unlinked; a
`os.replace` failure triggers the `suppress(FileNotFoundError)` unlink before
re-raising; on success the temp file is renamed over the destination. -/
def sync_file_deltaF (md5 : List Nat → List Nat) (block_size : Nat)
    (src d : List Nat) (budget : Nat) (rename_ok : Bool) : SyncOutcome :=
  let w := write_deltaF md5 block_size src d budget
  if w.raised then ⟨true, d, w.tempExists⟩
  else if rename_ok then ⟨false, w.tempBytes, false⟩
  else ⟨true, d, false⟩

end strategy

namespace sync

/-- `_BlockSignature` as re-declared in `sync.py`. -/
structure BlockSignature where
  strong : List Nat
  offset : Nat
  length : Nat
  deriving Repr, DecidableEq

/-- `_LITERAL_CHUNK_SIZE = 1 << 20` as re-declared in `sync.py`. -/
def LITERAL_CHUNK_SIZE : Nat := 1 <<< 20

/-- The chunk loop of `DeltaSynchronizer._write_slice`. -/
def writeSliceChunks (buffer : List Nat) : Nat → Nat → Nat → List Nat × Nat
  | _, _, 0 => ([], 0)
  | start, stop, fuel + 1 =>
    if start < stop then
      let chunk_end := min (start + LITERAL_CHUNK_SIZE) stop
      let rest := writeSliceChunks buffer chunk_end stop fuel
      (slice buffer start chunk_end ++ rest.1, (chunk_end - start) + rest.2)
    else ([], 0)

/-- `DeltaSynchronizer._write_slice`. -/
def write_slice (buffer : List Nat) (start stop : Nat) : List Nat × Nat :=
  writeSliceChunks buffer start stop (stop - start)

/-- `DeltaSynchronizer._copy_block`. -/
def copy_block (buffer : List Nat) (offset length : Nat) : List Nat :=
  (write_slice buffer offset (offset + max length 0)).1

/-- The `while` loop of `DeltaSynchronizer._index_destination_blocks`. -/
def indexBlocksFrom (md5 : List Nat → List Nat) (block_size : Nat) (buffer : List Nat) :
    Nat → Nat → List (Nat × BlockSignature)
  | _, 0 => []
  | offset, fuel + 1 =>
    if offset < buffer.length then
      let block := slice buffer offset (min (offset + block_size) buffer.length)
      if block = [] then []
      else
        ((RollingChecksum.init block (block.length : Int)).digest,
            ⟨md5 block, offset, block.length⟩)
          :: indexBlocksFrom md5 block_size buffer (offset + block_size) fuel
    else []

/-- `DeltaSynchronizer._index_destination_blocks`. -/
def index_destination_blocks (md5 : List Nat → List Nat) (block_size : Nat)
    (buffer : List Nat) : List (Nat × BlockSignature) :=
  if buffer.length = 0 then []
  else indexBlocksFrom md5 block_size buffer 0 (buffer.length + 1)

/-- `DeltaSynchronizer._find_match`. -/
def find_match (signatures : List (Nat × BlockSignature)) (weak_checksum : Nat)
    (strong : List Nat) : Option BlockSignature :=
  match signatures with
  | [] => none
  | (w, candidate) :: rest =>
    if w = weak_checksum ∧ candidate.strong = strong then some candidate
    else find_match rest weak_checksum strong

/-- The main loop of `DeltaSynchronizer._write_delta`. -/
def deltaLoop (md5 : List Nat → List Nat) (block_size : Nat) (src dst : List Nat)
    (signatures : List (Nat × BlockSignature)) :
    Nat → Nat → Nat → RollingChecksum → Nat → List DeltaOp × Nat × Nat
  | _, last_emitted, literal_bytes, _, 0 => ([], literal_bytes, last_emitted)
  | idx, last_emitted, literal_bytes, checksum, fuel + 1 =>
    if idx + block_size ≤ src.length then
      match find_match signatures checksum.digest (md5 (slice src idx (idx + block_size))) with
      | some m =>
        let emitted :=
          if last_emitted < idx then
            [DeltaOp.literal (write_slice src last_emitted idx).1]
          else []
        let literal_bytes' :=
          if last_emitted < idx then literal_bytes + (write_slice src last_emitted idx).2
          else literal_bytes
        let emitted := emitted ++ [DeltaOp.copy (copy_block dst m.offset m.length)]
        let idx' := idx + block_size
        if idx' + block_size ≤ src.length then
          let checksum' := RollingChecksum.init (slice src idx' (idx' + block_size))
            (block_size : Int)
          let rest := deltaLoop md5 block_size src dst signatures idx' idx' literal_bytes'
            checksum' fuel
          (emitted ++ rest.1, rest.2)
        else
          (emitted, literal_bytes', idx')
      | none =>
        if src.length ≤ idx + block_size then ([], literal_bytes, last_emitted)
        else
          deltaLoop md5 block_size src dst signatures (idx + 1) last_emitted literal_bytes
            (checksum.roll (src.getD idx 0) (src.getD (idx + block_size) 0)) fuel
    else ([], literal_bytes, last_emitted)

/-- `DeltaSynchronizer._write_delta`. -/
def write_delta (md5 : List Nat → List Nat) (block_size : Nat) (src dst : List Nat) :
    List DeltaOp × Nat :=
  let signatures := index_destination_blocks md5 block_size dst
  if signatures = [] ∨ src.length < block_size then
    let ws := write_slice src 0 src.length
    ([DeltaOp.literal ws.1], ws.2)
  else
    let checksum := RollingChecksum.init (slice src 0 block_size) (block_size : Int)
    let res := deltaLoop md5 block_size src dst signatures 0 0 0 checksum (src.length + 1)
    if res.2.2 < src.length then
      let ws := write_slice src res.2.2 src.length
      (res.1 ++ [DeltaOp.literal ws.1], res.2.1 + ws.2)
    else (res.1, res.2.1)

/-- `DeltaSynchronizer.sync_file`; `sync.py` declares its own `SyncError`, still
a bare failure here. -/
def DeltaSynchronizer.sync_file (md5 : List Nat → List Nat) (block_size : Nat)
    (src : List Nat) (destination : Option FsNode) :
    Except Unit (List Nat × SyncStats) :=
  match destination with
  | some .symlink => .error ()
  | none =>
    .ok (src, ⟨src.length, src.length, 0⟩)
  | some (.file d) =>
    if src.length = 0 then
      .ok ([], ⟨0, 0, 0⟩)
    else if src = d then
      .ok (d, ⟨src.length, 0, src.length⟩)
    else
      let res := write_delta md5 block_size src d
      .ok (opsBytes res.1, ⟨src.length, res.2, max (src.length - res.2) 0⟩)

end sync

/-- The two modules' `_BlockSignature` dataclasses are field-identical. -/
def toSyncSig (s : strategy.BlockSignature) : sync.BlockSignature :=
  ⟨s.strong, s.offset, s.length⟩

end Pysync

namespace Pysync

@[simp] theorem slice_nil (a b : Nat) : slice [] a b = [] := by
  simp [slice]

@[simp] theorem slice_self (l : List Nat) (a : Nat) : slice l a a = [] := by
  simp [slice]

theorem slice_zero_length (l : List Nat) : slice l 0 l.length = l := by
  simp [slice]

theorem length_slice (l : List Nat) (a b : Nat) :
    (slice l a b).length = min (b - a) (l.length - a) := by
  simp [slice]

theorem length_slice_of_le (l : List Nat) (a b : Nat) (hab : a ≤ b)
    (hb : b ≤ l.length) : (slice l a b).length = b - a := by
  rw [length_slice]; omega

/-- Concatenating adjacent slices. -/
theorem slice_append_slice (l : List Nat) {a b c : Nat} (hab : a ≤ b) (hbc : b ≤ c) :
    slice l a b ++ slice l b c = slice l a c := by
  unfold slice
  have h1 : c - a = (b - a) + (c - b) := by omega
  rw [h1, List.take_add, List.drop_drop]
  have h2 : a + (b - a) = b := by omega
  rw [h2]

/-- Peeling the first element off a slice. -/
theorem slice_cons (l : List Nat) {a b : Nat} (ha : a < l.length) (hab : a < b) :
    slice l a b = l.getD a 0 :: slice l (a + 1) b := by
  unfold slice
  rw [List.drop_eq_getElem_cons ha]
  have hb : b - a = (b - (a + 1)) + 1 := by omega
  rw [hb, List.take_succ_cons, List.getD_eq_getElem l 0 ha]

/-- Extending a slice by one element on the right. -/
theorem slice_snoc (l : List Nat) {a b : Nat} (hab : a ≤ b) (hb : b < l.length) :
    slice l a (b + 1) = slice l a b ++ [l.getD b 0] := by
  unfold slice
  have h1 : b + 1 - a = (b - a) + 1 := by omega
  rw [h1, List.take_succ]
  congr 1
  have h2 : (l.drop a)[b - a]? = l[a + (b - a)]? := List.getElem?_drop l a (b - a)
  have h3 : a + (b - a) = b := by omega
  rw [h2, h3, List.getElem?_eq_getElem hb, List.getD_eq_getElem l 0 hb]
  rfl

/-- A slice that starts inside the buffer and is cut at the buffer's length. -/
theorem slice_min_right (l : List Nat) (a k : Nat) :
    slice l a (min (a + k) l.length) = slice l a (a + k) := by
  unfold slice
  rcases Nat.le_total (a + k) l.length with h | h
  · rw [Nat.min_eq_left h]
  · rw [Nat.min_eq_right h]
    have hlen : (l.drop a).length ≤ a + k - a := by
      rw [List.length_drop]; omega
    rw [List.take_of_length_le hlen]
    have hlen2 : (l.drop a).length ≤ l.length - a := by rw [List.length_drop]
    rw [List.take_of_length_le hlen2]

/-! ## `rolling_checksum.py` -/

theorem byteSum_append (s t : List Nat) : byteSum (s ++ t) = byteSum s + byteSum t := by
  induction s with
  | nil => simp [byteSum]
  | cons b s ih => simp [byteSum, ih, add_assoc]

/-- Shifting the start index of the weighted sum down by one adds one plain copy
of every byte. -/
theorem weightedSum_shift (L : Int) (t : List Nat) :
    ∀ i : Int, weightedSum L (i + 1) t + byteSum t = weightedSum L i t := by
  induction t with
  | nil => intro i; simp [weightedSum, byteSum]
  | cons b t ih =>
    intro i
    show (L - (i + 1) + 1) * (b : Int) + weightedSum L (i + 1 + 1) t + ((b : Int) + byteSum t)
        = (L - i + 1) * (b : Int) + weightedSum L (i + 1) t
    have h := ih (i + 1)
    linarith

theorem weightedSum_append_single (L : Int) (a : Nat) (t : List Nat) :
    ∀ i : Int, weightedSum L i (t ++ [a])
      = weightedSum L i t + (L - (i + t.length) + 1) * (a : Int) := by
  induction t with
  | nil => intro i; simp [weightedSum]
  | cons b t ih =>
    intro i
    show (L - i + 1) * (b : Int) + weightedSum L (i + 1) (t ++ [a])
        = (L - i + 1) * (b : Int) + weightedSum L (i + 1) t + (L - (i + (t.length + 1)) + 1) * (a : Int)
    rw [ih (i + 1)]
    ring

/-- One `roll` starting from the checksum of window `x :: t` lands exactly on the
checksum of the shifted window `t ++ [a]` — as full states, not just digests. -/
theorem roll_init (x a : Nat) (t : List Nat) (L : Int)
    (hL : (t.length : Int) + 1 = L) :
    (RollingChecksum.init (x :: t) L).roll x a = RollingChecksum.init (t ++ [a]) L := by
  have hM : MOD = 65536 := rfl
  have hbs : byteSum (t ++ [a]) = byteSum t + ((a : Int) + 0) := byteSum_append t [a]
  simp only [RollingChecksum.roll, RollingChecksum.init, RollingChecksum.mk.injEq]
  refine ⟨trivial, ?_, ?_⟩
  · show (((x : Int) + byteSum t) % MOD - (x : Int) + (a : Int)) % MOD
        = byteSum (t ++ [a]) % MOD
    rw [hbs]
    generalize byteSum t = s
    rw [hM]
    omega
  · show ((((L : Int) - 1 + 1) * (x : Int) + weightedSum L (1 + 1) t) % MOD - L * (x : Int)
        + (((x : Int) + byteSum t) % MOD - (x : Int) + (a : Int)) % MOD) % MOD
      = weightedSum L 1 (t ++ [a]) % MOD
    rw [weightedSum_append_single L a t 1]
    have hcoef : (L : Int) - (1 + (t.length : Int)) + 1 = 1 := by omega
    rw [hcoef, one_mul]
    have hsum : weightedSum L (1 + 1) t = weightedSum L 1 t - byteSum t := by
      have h := weightedSum_shift L t 1
      linarith
    rw [hsum]
    have hx : ((L : Int) - 1 + 1) * (x : Int) = L * (x : Int) := by ring
    rw [hx]
    generalize L * (x : Int) = z
    generalize weightedSum L 1 t = w
    generalize byteSum t = s
    rw [hM]
    omega

/-- The states reached by rolling agree with freshly initialised states on every
window, as long as the window stays inside the buffer. -/
theorem rollFrom_eq_init (buf : List Nat) (L : Nat) (hL : 1 ≤ L) :
    ∀ k : Nat, k + L ≤ buf.length →
      rollFrom (RollingChecksum.init (slice buf 0 L) (L : Int)) buf L k
        = RollingChecksum.init (slice buf k (k + L)) (L : Int) := by
  intro k
  induction k with
  | zero => intro _; simp [rollFrom]
  | succ k ih =>
    intro hk
    have hk' : k + L ≤ buf.length := by omega
    show (rollFrom (RollingChecksum.init (slice buf 0 L) (L : Int)) buf L k).roll
        (buf.getD k 0) (buf.getD (k + L) 0)
      = RollingChecksum.init (slice buf (k + 1) (k + 1 + L)) (L : Int)
    rw [ih hk']
    have hkl : k < buf.length := by omega
    have hcons : slice buf k (k + L) = buf.getD k 0 :: slice buf (k + 1) (k + L) :=
      slice_cons buf hkl (by omega)
    have hsnoc : slice buf (k + 1) (k + L + 1)
        = slice buf (k + 1) (k + L) ++ [buf.getD (k + L) 0] :=
      slice_snoc buf (by omega) (by omega)
    have hlen : (slice buf (k + 1) (k + L)).length = L - 1 := by
      rw [length_slice_of_le buf (k + 1) (k + L) (by omega) (by omega)]
      omega
    rw [hcons]
    have harr : k + 1 + L = k + L + 1 := by omega
    rw [harr, hsnoc]
    exact roll_init (buf.getD k 0) (buf.getD (k + L) 0) (slice buf (k + 1) (k + L)) (L : Int)
      (by rw [hlen]; omega)

/-! ## Shared data model

`stats.py` defines `SyncStats`; `sync.py` re-declares the identical frozen dataclass,
so one Lean structure serves both modules.  `DeltaOp` is the spec's conceptual
delta operation: each write the reconstruction loop performs on the temp file is
either a literal span of the source or a copied destination block. -/

@[simp] theorem opsBytes_nil : opsBytes [] = [] := rfl

theorem opsBytes_cons (op : DeltaOp) (rest : List DeltaOp) :
    opsBytes (op :: rest) = op.bytes ++ opsBytes rest := by
  simp [opsBytes]

theorem opsBytes_append (xs ys : List DeltaOp) :
    opsBytes (xs ++ ys) = opsBytes xs ++ opsBytes ys := by
  simp [opsBytes]

@[simp] theorem litLen_nil : litLen [] = 0 := rfl

@[simp] theorem litLen_cons_literal (bs : List Nat) (rest : List DeltaOp) :
    litLen (.literal bs :: rest) = bs.length + litLen rest := rfl

@[simp] theorem litLen_cons_copy (bs : List Nat) (rest : List DeltaOp) :
    litLen (.copy bs :: rest) = litLen rest := rfl

theorem litLen_append (xs ys : List DeltaOp) :
    litLen (xs ++ ys) = litLen xs + litLen ys := by
  induction xs with
  | nil => simp
  | cons op rest ih =>
    rw [List.cons_append]
    cases op with
    | literal bs => rw [litLen_cons_literal, litLen_cons_literal, ih]; omega
    | copy bs => rw [litLen_cons_copy, litLen_cons_copy, ih]

theorem litLen_le_length_opsBytes (ops : List DeltaOp) :
    litLen ops ≤ (opsBytes ops).length := by
  induction ops with
  | nil => simp
  | cons op rest ih =>
    rw [opsBytes_cons, List.length_append]
    cases op with
    | literal bs => rw [litLen_cons_literal]; simp only [DeltaOp.bytes]; omega
    | copy bs => rw [litLen_cons_copy]; omega

namespace strategy

/-! ### Characterisation of the write helpers -/

theorem writeSliceChunks_spec (buffer : List Nat) (stop : Nat) :
    ∀ fuel start, stop - start ≤ fuel →
      writeSliceChunks buffer start stop fuel = (slice buffer start stop, stop - start) := by
  intro fuel
  induction fuel with
  | zero =>
    intro start h
    have hss : stop - start = 0 := by omega
    simp [writeSliceChunks, slice, hss]
  | succ fuel ih =>
    intro start h
    by_cases hlt : start < stop
    · have hchunk : 1 ≤ min (start + LITERAL_CHUNK_SIZE) stop - start := by
        have : 1 ≤ LITERAL_CHUNK_SIZE := by decide
        omega
      simp only [writeSliceChunks, if_pos hlt]
      rw [ih (min (start + LITERAL_CHUNK_SIZE) stop) (by omega)]
      refine Prod.ext ?_ ?_
      · exact slice_append_slice buffer (by omega) (by omega)
      · show min (start + LITERAL_CHUNK_SIZE) stop - start
            + (stop - min (start + LITERAL_CHUNK_SIZE) stop) = stop - start
        omega
    · have hss : stop - start = 0 := by omega
      simp [writeSliceChunks, if_neg hlt, slice, hss]

/-- `_write_slice` writes exactly `buffer[start:stop]` and returns
`stop - start` clamped at zero — the chunking is invisible. -/
theorem write_slice_eq (buffer : List Nat) (start stop : Nat) :
    write_slice buffer start stop = (slice buffer start stop, stop - start) :=
  writeSliceChunks_spec buffer stop (stop - start) start le_rfl

/-- `_copy_block` writes exactly `buffer[offset : offset + length]`. -/
theorem copy_block_eq (buffer : List Nat) (offset length : Nat) :
    copy_block buffer offset length = slice buffer offset (offset + length) := by
  unfold copy_block
  rw [write_slice_eq]
  simp

/-- A match returned by `_find_match` is a stored signature whose strong digest
equals the probe's strong digest. -/
theorem find_match_spec (signatures : List (Nat × BlockSignature)) (weak : Nat)
    (strong : List Nat) (m : BlockSignature)
    (h : find_match signatures weak strong = some m) :
    (weak, m) ∈ signatures ∧ m.strong = strong := by
  induction signatures with
  | nil => simp [find_match] at h
  | cons p rest ih =>
    obtain ⟨w, candidate⟩ := p
    rw [find_match] at h
    by_cases hc : w = weak ∧ candidate.strong = strong
    · rw [if_pos hc] at h
      obtain ⟨hw, hs⟩ := hc
      obtain rfl : candidate = m := by injection h
      exact ⟨by rw [hw] at *; exact List.mem_cons_self .., hs⟩
    · rw [if_neg hc] at h
      obtain ⟨hmem, hs⟩ := ih h
      exact ⟨List.mem_cons_of_mem _ hmem, hs⟩

/-! ### Closed form of the destination block index -/

theorem lt_numBlocks_iff {B len i : Nat} (hB : 0 < B) :
    i < numBlocks B len ↔ i * B < len := by
  unfold numBlocks
  rw [Nat.lt_iff_add_one_le, Nat.le_div_iff_mul_le hB]
  have hdist : (i + 1) * B = i * B + B := by ring
  omega

theorem numBlocks_le (B len : Nat) (hB : 0 < B) : numBlocks B len ≤ len + 1 := by
  unfold numBlocks
  rw [Nat.div_le_iff_le_mul_add_pred hB]
  have hmul : len ≤ B * (len + 1) := by
    calc len ≤ 1 * (len + 1) := by omega
    _ ≤ B * (len + 1) := Nat.mul_le_mul_right _ hB
  omega

theorem indexBlocksFrom_eq (md5 : List Nat → List Nat) (B : Nat) (buffer : List Nat)
    (hB : 0 < B) :
    ∀ fuel i, numBlocks B buffer.length - i ≤ fuel →
      indexBlocksFrom md5 B buffer (i * B) fuel
        = (List.range (numBlocks B buffer.length - i)).map
            (fun j => sigAt md5 B buffer ((i + j) * B)) := by
  intro fuel
  induction fuel with
  | zero =>
    intro i h
    have h0 : numBlocks B buffer.length - i = 0 := by omega
    simp [indexBlocksFrom, h0]
  | succ fuel ih =>
    intro i h
    by_cases hoff : i * B < buffer.length
    · have hi : i < numBlocks B buffer.length := (lt_numBlocks_iff hB).2 hoff
      have hblock_eq : slice buffer (i * B) (min (i * B + B) buffer.length)
          = slice buffer (i * B) (i * B + B) := slice_min_right buffer (i * B) B
      have hne : ¬ slice buffer (i * B) (min (i * B + B) buffer.length) = [] := by
        rw [hblock_eq]
        intro hnil
        have hlen := congrArg List.length hnil
        rw [length_slice] at hlen
        simp at hlen
        omega
      rw [indexBlocksFrom, if_pos hoff, if_neg hne]
      have hr : numBlocks B buffer.length - i = (numBlocks B buffer.length - (i + 1)) + 1 := by
        omega
      rw [hr, List.range_succ_eq_map, List.map_cons, List.map_map]
      simp only [List.cons.injEq]
      constructor
      · simp only [Nat.add_zero]
        unfold sigAt
        rw [hblock_eq]
      · have harith : i * B + B = (i + 1) * B := by ring
        rw [harith, ih (i + 1) (by omega)]
        apply List.map_congr_left
        intro j _
        show sigAt md5 B buffer ((i + 1 + j) * B) = sigAt md5 B buffer ((i + (j + 1)) * B)
        have hj : i + 1 + j = i + (j + 1) := by omega
        rw [hj]
    · have hi : numBlocks B buffer.length ≤ i := by
        by_contra hlt
        exact hoff ((lt_numBlocks_iff hB).1 (by omega))
      have h0 : numBlocks B buffer.length - i = 0 := by omega
      rw [indexBlocksFrom, if_neg hoff, h0]
      simp

/-- C5's core: `_index_destination_blocks` computes exactly one signature per
block offset `0, B, 2B, …`, in offset order. -/
theorem index_destination_blocks_eq (md5 : List Nat → List Nat) (B : Nat)
    (buffer : List Nat) (hB : 0 < B) :
    index_destination_blocks md5 B buffer = indexSpec md5 B buffer := by
  unfold index_destination_blocks indexSpec
  by_cases hlen : buffer.length = 0
  · rw [if_pos hlen, hlen]
    have h0 : numBlocks B 0 = 0 := by
      unfold numBlocks
      exact Nat.div_eq_of_lt (by omega)
    rw [h0]
    simp
  · rw [if_neg hlen]
    have hfuel : numBlocks B buffer.length - 0 ≤ buffer.length + 1 := by
      have := numBlocks_le B buffer.length hB
      omega
    have h0 := indexBlocksFrom_eq md5 B buffer hB (buffer.length + 1) 0 hfuel
    rw [Nat.zero_mul] at h0
    rw [h0, Nat.sub_zero]
    apply List.map_congr_left
    intro j _
    rw [Nat.zero_add]

/-- Every signature in the index describes the destination block at its own
offset: the strong digest is the digest of that block and the stored length is
the block's length. -/
theorem index_mem_spec (md5 : List Nat → List Nat) (B : Nat) (buffer : List Nat)
    (hB : 0 < B) {w : Nat} {sig : BlockSignature}
    (hmem : (w, sig) ∈ index_destination_blocks md5 B buffer) :
    sig.strong = md5 (slice buffer sig.offset (sig.offset + B)) ∧
    sig.length = (slice buffer sig.offset (sig.offset + B)).length := by
  rw [index_destination_blocks_eq md5 B buffer hB] at hmem
  unfold indexSpec at hmem
  obtain ⟨i, _, hentry⟩ := List.mem_map.1 hmem
  unfold sigAt at hentry
  obtain ⟨hw, hsig⟩ := Prod.mk.injEq .. ▸ hentry
  subst hsig
  exact ⟨rfl, rfl⟩

/-! ### Correctness of the reconstruction loop -/

/-- Loop invariant of the delta scan: the writes performed from state
`(idx, last_emitted)` onward concatenate to exactly
`src[last_emitted : last_emitted']`, where `last_emitted'` is the final
`last_emitted`, and `literal_bytes` grows by exactly the total length of the
emitted literal spans.  Holds for any rolling-checksum state: matching is
validated by the strong digest, which is collision-free by assumption. -/
theorem deltaLoop_spec (md5 : List Nat → List Nat) (hinj : Function.Injective md5)
    (B : Nat) (hB : 0 < B) (src dst : List Nat) :
    ∀ fuel idx last_emitted lit cs,
      src.length - idx < fuel →
      last_emitted ≤ idx →
      idx + B ≤ src.length →
      opsBytes (deltaLoop md5 B src dst (index_destination_blocks md5 B dst)
          idx last_emitted lit cs fuel).1
        = slice src last_emitted
            (deltaLoop md5 B src dst (index_destination_blocks md5 B dst)
              idx last_emitted lit cs fuel).2.2 ∧
      last_emitted ≤ (deltaLoop md5 B src dst (index_destination_blocks md5 B dst)
          idx last_emitted lit cs fuel).2.2 ∧
      (deltaLoop md5 B src dst (index_destination_blocks md5 B dst)
          idx last_emitted lit cs fuel).2.2 ≤ src.length ∧
      (deltaLoop md5 B src dst (index_destination_blocks md5 B dst)
          idx last_emitted lit cs fuel).2.1
        = lit + litLen (deltaLoop md5 B src dst (index_destination_blocks md5 B dst)
            idx last_emitted lit cs fuel).1 := by
  intro fuel
  induction fuel with
  | zero => intro idx le lit cs hfuel _ _; omega
  | succ fuel ih =>
    intro idx le lit cs hfuel hle hidx
    cases hfm : find_match (index_destination_blocks md5 B dst) cs.digest
        (md5 (slice src idx (idx + B))) with
    | none =>
      by_cases hend : src.length ≤ idx + B
      · rw [deltaLoop, if_pos hidx, hfm, if_pos hend]
        refine ⟨?_, le_rfl, ?_, ?_⟩
        · show opsBytes [] = slice src le le
          simp
        · show le ≤ src.length
          omega
        · show lit = lit + litLen []
          simp
      · rw [deltaLoop, if_pos hidx, hfm, if_neg hend]
        exact ih (idx + 1) le lit _ (by omega) (by omega) (by omega)
    | some m =>
      obtain ⟨hmem, hstrong⟩ := find_match_spec _ _ _ _ hfm
      obtain ⟨hsig_strong, hsig_len⟩ := index_mem_spec md5 B dst hB hmem
      have hwin : slice dst m.offset (m.offset + B) = slice src idx (idx + B) :=
        hinj (by rw [← hsig_strong, hstrong])
      have hwinlen : (slice src idx (idx + B)).length = B := by
        have := length_slice_of_le src idx (idx + B) (by omega) hidx
        omega
      have hmlen : m.length = B := by rw [hsig_len, hwin, hwinlen]
      have hcopy : copy_block dst m.offset m.length = slice src idx (idx + B) := by
        rw [copy_block_eq, hmlen, hwin]
      have hemit :
          opsBytes ((if le < idx then [DeltaOp.literal (write_slice src le idx).1] else [])
              ++ [DeltaOp.copy (copy_block dst m.offset m.length)])
            = slice src le (idx + B) ∧
          litLen ((if le < idx then [DeltaOp.literal (write_slice src le idx).1] else [])
              ++ [DeltaOp.copy (copy_block dst m.offset m.length)])
            = idx - le := by
        by_cases hlt : le < idx
        · rw [if_pos hlt]
          constructor
          · simp only [opsBytes_append, opsBytes_cons, opsBytes_nil, DeltaOp.bytes,
              List.append_nil, write_slice_eq, hcopy]
            exact slice_append_slice src (by omega) (by omega)
          · simp only [litLen_append, litLen_cons_literal, litLen_cons_copy, litLen_nil,
              write_slice_eq]
            have := length_slice_of_le src le idx (by omega) (by omega)
            omega
        · rw [if_neg hlt]
          have hle' : le = idx := by omega
          subst hle'
          constructor
          · simp only [List.nil_append, opsBytes_cons, opsBytes_nil, DeltaOp.bytes,
              List.append_nil, hcopy]
          · simp only [List.nil_append, litLen_cons_copy, litLen_nil]
            omega
      have hlit' :
          (if le < idx then lit + (write_slice src le idx).2 else lit) = lit + (idx - le) := by
        by_cases hlt : le < idx
        · rw [if_pos hlt, write_slice_eq]
        · rw [if_neg hlt]
          omega
      by_cases hcont : idx + B + B ≤ src.length
      · rw [deltaLoop, if_pos hidx, hfm]
        simp only [if_pos hcont]
        obtain ⟨hbytes, hmono, hbound, hlit⟩ :=
          ih (idx + B) (idx + B)
            (if le < idx then lit + (write_slice src le idx).2 else lit)
            (RollingChecksum.init (slice src (idx + B) (idx + B + B)) (B : Int))
            (by omega) le_rfl hcont
        refine ⟨?_, by omega, by omega, ?_⟩
        · rw [opsBytes_append, hemit.1, hbytes]
          exact slice_append_slice src (by omega) hmono
        · rw [litLen_append, hemit.2, hlit, hlit']
          omega
      · rw [deltaLoop, if_pos hidx, hfm]
        simp only [if_neg hcont]
        exact ⟨hemit.1, by omega, by omega, by rw [hemit.2, hlit']⟩

/-- `_write_delta` (with a collision-free strong digest) emits writes that
concatenate to exactly the source buffer, and its `literal_bytes` return value
is exactly the total length of the emitted literal spans, at most the source
length. -/
theorem write_delta_spec (md5 : List Nat → List Nat) (hinj : Function.Injective md5)
    (B : Nat) (hB : 0 < B) (src dst : List Nat) :
    opsBytes (write_delta md5 B src dst).1 = src ∧
    (write_delta md5 B src dst).2 = litLen (write_delta md5 B src dst).1 ∧
    (write_delta md5 B src dst).2 ≤ src.length := by
  by_cases hfast : index_destination_blocks md5 B dst = [] ∨ src.length < B
  · simp only [write_delta, if_pos hfast, write_slice_eq]
    refine ⟨?_, ?_, ?_⟩
    · simp only [opsBytes_cons, opsBytes_nil, List.append_nil, Nat.sub_zero]
      exact slice_zero_length src
    · simp only [litLen_cons_literal, litLen_nil, Nat.sub_zero, Nat.add_zero]
      rw [slice_zero_length src]
    · simp
  · have hcond : ¬ (index_destination_blocks md5 B dst = [] ∨ src.length < B) := hfast
    push_neg at hfast
    obtain ⟨hsig_ne, hsrc_len⟩ := hfast
    obtain ⟨hbytes, hmono, hbound, hlit⟩ :=
      deltaLoop_spec md5 hinj B hB src dst (src.length + 1) 0 0 0
        (RollingChecksum.init (slice src 0 B) (B : Int)) (by omega) le_rfl (by omega)
    rw [Nat.zero_add] at hlit
    have hlit_le :
        litLen (deltaLoop md5 B src dst (index_destination_blocks md5 B dst) 0 0 0
            (RollingChecksum.init (slice src 0 B) (B : Int)) (src.length + 1)).1
          ≤ (deltaLoop md5 B src dst (index_destination_blocks md5 B dst) 0 0 0
              (RollingChecksum.init (slice src 0 B) (B : Int)) (src.length + 1)).2.2 := by
      have h1 := litLen_le_length_opsBytes
        (deltaLoop md5 B src dst (index_destination_blocks md5 B dst) 0 0 0
          (RollingChecksum.init (slice src 0 B) (B : Int)) (src.length + 1)).1
      rw [hbytes, length_slice_of_le src 0 _ (by omega) hbound] at h1
      omega
    simp only [write_delta, if_neg hcond]
    by_cases htail :
        (deltaLoop md5 B src dst (index_destination_blocks md5 B dst) 0 0 0
          (RollingChecksum.init (slice src 0 B) (B : Int)) (src.length + 1)).2.2 < src.length
    · simp only [if_pos htail, write_slice_eq]
      refine ⟨?_, ?_, ?_⟩
      · rw [opsBytes_append, hbytes, opsBytes_cons, opsBytes_nil, List.append_nil]
        show slice src 0 _ ++ slice src _ src.length = src
        rw [slice_append_slice src (Nat.zero_le _) hbound]
        exact slice_zero_length src
      · rw [litLen_append, litLen_cons_literal, litLen_nil,
          length_slice_of_le src _ src.length (by omega) le_rfl]
        omega
      · omega
    · simp only [if_neg htail]
      have heq :
          (deltaLoop md5 B src dst (index_destination_blocks md5 B dst) 0 0 0
            (RollingChecksum.init (slice src 0 B) (B : Int)) (src.length + 1)).2.2
          = src.length := by omega
      refine ⟨?_, hlit, by omega⟩
      rw [hbytes, heq]
      exact slice_zero_length src

/-- Exhaustive case analysis of a successful `DeltaStrategy.sync_file` call:
missing destination, empty source, byte-equal files, or the delta path. -/
theorem sync_file_ok_cases (md5 : List Nat → List Nat) (B : Nat) (src : List Nat)
    (destination : Option FsNode) (bytes : List Nat) (stats : SyncStats)
    (h : DeltaStrategy.sync_file md5 B src destination = .ok (bytes, stats)) :
    (destination = none ∧ bytes = src ∧ stats = ⟨src.length, src.length, 0⟩) ∨
    (∃ d, destination = some (.file d) ∧ src.length = 0 ∧ bytes = [] ∧ stats = ⟨0, 0, 0⟩) ∨
    (∃ d, destination = some (.file d) ∧ ¬ src.length = 0 ∧ src = d ∧ bytes = d ∧
      stats = ⟨src.length, 0, src.length⟩) ∨
    (∃ d, destination = some (.file d) ∧ ¬ src.length = 0 ∧ ¬ src = d ∧
      bytes = opsBytes (write_delta md5 B src d).1 ∧
      stats = ⟨src.length, (write_delta md5 B src d).2,
        max (src.length - (write_delta md5 B src d).2) 0⟩) := by
  match destination with
  | some .symlink => exact absurd h (by simp [DeltaStrategy.sync_file])
  | none =>
    simp only [DeltaStrategy.sync_file, Except.ok.injEq, Prod.mk.injEq] at h
    exact Or.inl ⟨rfl, h.1.symm, h.2.symm⟩
  | some (.file d) =>
    simp only [DeltaStrategy.sync_file] at h
    by_cases h0 : src.length = 0
    · rw [if_pos h0] at h
      simp only [Except.ok.injEq, Prod.mk.injEq] at h
      exact Or.inr (Or.inl ⟨d, rfl, h0, h.1.symm, h.2.symm⟩)
    · rw [if_neg h0] at h
      by_cases heq : src = d
      · rw [if_pos heq] at h
        simp only [Except.ok.injEq, Prod.mk.injEq] at h
        exact Or.inr (Or.inr (Or.inl ⟨d, rfl, h0, heq, h.1.symm, h.2.symm⟩))
      · rw [if_neg heq] at h
        simp only [Except.ok.injEq, Prod.mk.injEq] at h
        exact Or.inr (Or.inr (Or.inr ⟨d, rfl, h0, heq, h.1.symm, h.2.symm⟩))

/-- A successful `DeltaStrategy.sync_file` leaves the destination byte-equal to
the source (with a collision-free strong digest and positive block size). -/
theorem sync_file_ok_bytes (md5 : List Nat → List Nat) (hinj : Function.Injective md5)
    (B : Nat) (hB : 0 < B) (src : List Nat) (destination : Option FsNode)
    (bytes : List Nat) (stats : SyncStats)
    (h : DeltaStrategy.sync_file md5 B src destination = .ok (bytes, stats)) :
    bytes = src := by
  rcases sync_file_ok_cases md5 B src destination bytes stats h with
    ⟨_, hb, _⟩ | ⟨d, _, h0, hb, _⟩ | ⟨d, _, _, heq, hb, _⟩ | ⟨d, _, _, _, hb, _⟩
  · exact hb
  · rw [hb, List.length_eq_zero.mp h0]
  · rw [hb, heq]
  · rw [hb]
    exact (write_delta_spec md5 hinj B hB src d).1

/-! ### Hash irrelevance

Which windows match depends only on equality of strong digests, so any
injective digest function produces the same writes and stats as the identity
digest.  This reduces concrete scenarios to computation. -/

theorem index_map (md5 : List Nat → List Nat) (B : Nat) (buffer : List Nat) (hB : 0 < B) :
    index_destination_blocks md5 B buffer
      = (index_destination_blocks id B buffer).map
          (fun p => (p.1, mapStrong md5 p.2)) := by
  rw [index_destination_blocks_eq md5 B buffer hB, index_destination_blocks_eq id B buffer hB]
  unfold indexSpec
  rw [List.map_map]
  apply List.map_congr_left
  intro i _
  rfl

theorem find_match_map (md5 : List Nat → List Nat) (hinj : Function.Injective md5)
    (sigs : List (Nat × BlockSignature)) (w : Nat) (strong : List Nat) :
    find_match (sigs.map (fun p => (p.1, mapStrong md5 p.2))) w (md5 strong)
      = (find_match sigs w strong).map (mapStrong md5) := by
  induction sigs with
  | nil => rfl
  | cons p rest ih =>
    obtain ⟨pw, sig⟩ := p
    simp only [List.map_cons, find_match]
    by_cases hc : pw = w ∧ sig.strong = strong
    · rw [if_pos hc, if_pos ⟨hc.1, show md5 sig.strong = md5 strong from by rw [hc.2]⟩]
      rfl
    · rw [if_neg hc, if_neg (fun hc' => hc ⟨hc'.1, hinj hc'.2⟩), ih]

theorem deltaLoop_hash_irrel (md5 : List Nat → List Nat) (hinj : Function.Injective md5)
    (B : Nat) (hB : 0 < B) (src dst : List Nat) :
    ∀ fuel idx le lit cs,
      deltaLoop md5 B src dst (index_destination_blocks md5 B dst) idx le lit cs fuel
        = deltaLoop id B src dst (index_destination_blocks id B dst) idx le lit cs fuel := by
  intro fuel
  induction fuel with
  | zero => intro idx le lit cs; rfl
  | succ fuel ih =>
    intro idx le lit cs
    by_cases hidx : idx + B ≤ src.length
    · have hprobe :
          find_match (index_destination_blocks md5 B dst) cs.digest
              (md5 (slice src idx (idx + B)))
            = (find_match (index_destination_blocks id B dst) cs.digest
                (slice src idx (idx + B))).map (mapStrong md5) := by
        rw [index_map md5 B dst hB]
        exact find_match_map md5 hinj _ _ _
      cases hm : find_match (index_destination_blocks id B dst) cs.digest
          (slice src idx (idx + B)) with
      | none =>
        have hprobe' :
            find_match (index_destination_blocks md5 B dst) cs.digest
              (md5 (slice src idx (idx + B))) = none := by
          rw [hprobe, hm]; rfl
        by_cases hend : src.length ≤ idx + B
        · rw [deltaLoop, deltaLoop, if_pos hidx, if_pos hidx, hprobe']
          simp only [id_eq]
          rw [hm, if_pos hend, if_pos hend]
        · rw [deltaLoop, deltaLoop, if_pos hidx, if_pos hidx, hprobe']
          simp only [id_eq]
          rw [hm, if_neg hend, if_neg hend]
          exact ih (idx + 1) le lit _
      | some m =>
        have hprobe' :
            find_match (index_destination_blocks md5 B dst) cs.digest
              (md5 (slice src idx (idx + B))) = some (mapStrong md5 m) := by
          rw [hprobe, hm]; rfl
        rw [deltaLoop, deltaLoop, if_pos hidx, if_pos hidx, hprobe']
        simp only [id_eq]
        rw [hm]
        by_cases hcont : idx + B + B ≤ src.length
        · simp only [if_pos hcont, mapStrong, ih (idx + B) (idx + B)]
        · simp only [if_neg hcont, mapStrong]
    · rw [deltaLoop, deltaLoop, if_neg hidx, if_neg hidx]

theorem write_delta_hash_irrel (md5 : List Nat → List Nat) (hinj : Function.Injective md5)
    (B : Nat) (hB : 0 < B) (src dst : List Nat) :
    write_delta md5 B src dst = write_delta id B src dst := by
  have hnil : index_destination_blocks md5 B dst = [] ↔
      index_destination_blocks id B dst = [] := by
    rw [index_map md5 B dst hB, List.map_eq_nil_iff]
  by_cases hfast : index_destination_blocks id B dst = [] ∨ src.length < B
  · have hfast' : index_destination_blocks md5 B dst = [] ∨ src.length < B := by
      rcases hfast with h | h
      · exact Or.inl (hnil.mpr h)
      · exact Or.inr h
    simp only [write_delta, if_pos hfast, if_pos hfast']
  · have hfast' : ¬ (index_destination_blocks md5 B dst = [] ∨ src.length < B) := by
      intro hc
      rcases hc with h | h
      · exact hfast (Or.inl (hnil.mp h))
      · exact hfast (Or.inr h)
    simp only [write_delta, if_neg hfast, if_neg hfast',
      deltaLoop_hash_irrel md5 hinj B hB src dst]

theorem sync_file_hash_irrel (md5 : List Nat → List Nat) (hinj : Function.Injective md5)
    (B : Nat) (hB : 0 < B) (src : List Nat) (destination : Option FsNode) :
    DeltaStrategy.sync_file md5 B src destination
      = DeltaStrategy.sync_file id B src destination := by
  match destination with
  | some .symlink => rfl
  | none => rfl
  | some (.file d) =>
    simp only [DeltaStrategy.sync_file, write_delta_hash_irrel md5 hinj B hB src d]

/-! ### Fault injection for the error paths

`_write_delta` wraps all temp-file writing in `try/except`: on any exception it
runs `Path(temp_path).unlink(missing_ok=True)` and re-raises; `sync_file` wraps
`os.replace` similarly.  To make "any exception raised while writing" concrete,
every write to the temp file consumes one unit of a write budget and the write
that exhausts it raises.  The destination is only ever read during
reconstruction, so its bytes live untouched alongside the temp state. -/

/-- Sanity of the fault model: a successful chunked write under a budget
produces exactly the bytes and count of the pure chunked write. -/
theorem writeSliceChunksF_ok (buffer : List Nat) (stop : Nat) :
    ∀ fuel start budget bytes n b,
      writeSliceChunksF buffer start stop budget fuel = .ok (bytes, n, b) →
      (bytes, n) = writeSliceChunks buffer start stop fuel := by
  intro fuel
  induction fuel with
  | zero =>
    intro start budget bytes n b h
    rw [writeSliceChunksF] at h
    injection h with h
    rw [writeSliceChunks]
    simp only [Prod.mk.injEq] at h
    rw [← h.1, ← h.2.1]
  | succ fuel ih =>
    intro start budget bytes n b h
    rw [writeSliceChunksF] at h
    rw [writeSliceChunks]
    by_cases hlt : start < stop
    · rw [if_pos hlt] at h
      rw [if_pos hlt]
      cases budget with
      | zero => exact absurd h (by simp [faultyWrite])
      | succ b0 =>
        simp only [faultyWrite] at h
        cases hrec : writeSliceChunksF buffer (min (start + LITERAL_CHUNK_SIZE) stop)
            stop b0 fuel with
        | error e => rw [hrec] at h; exact absurd h (by simp)
        | ok triple =>
          obtain ⟨rest, n', b'⟩ := triple
          rw [hrec] at h
          simp only [Except.ok.injEq, Prod.mk.injEq] at h
          obtain ⟨hb, hn, _⟩ := h
          have hih := ih (min (start + LITERAL_CHUNK_SIZE) stop) b0 rest n' b' hrec
          have h1 : rest
              = (writeSliceChunks buffer (min (start + LITERAL_CHUNK_SIZE) stop) stop fuel).1 := by
            rw [← hih]
          have h2 : n'
              = (writeSliceChunks buffer (min (start + LITERAL_CHUNK_SIZE) stop) stop fuel).2 := by
            rw [← hih]
          rw [← hb, ← hn, h1, h2]
    · rw [if_neg hlt] at h
      rw [if_neg hlt]
      injection h with h
      simp only [Prod.mk.injEq] at h
      rw [← h.1, ← h.2.1]

theorem write_sliceF_ok (buffer : List Nat) (start stop budget : Nat)
    (bytes : List Nat) (n b : Nat)
    (h : write_sliceF buffer start stop budget = .ok (bytes, n, b)) :
    (bytes, n) = write_slice buffer start stop :=
  writeSliceChunksF_ok buffer stop (stop - start) start budget bytes n b h

theorem copy_blockF_ok (buffer : List Nat) (offset length budget : Nat)
    (bytes : List Nat) (b : Nat)
    (h : copy_blockF buffer offset length budget = .ok (bytes, b)) :
    bytes = copy_block buffer offset length := by
  rw [copy_blockF] at h
  cases hws : write_sliceF buffer offset (offset + max length 0) budget with
  | error e => rw [hws] at h; exact absurd h (by simp)
  | ok triple =>
    obtain ⟨ws, n, b'⟩ := triple
    rw [hws] at h
    simp only [Except.ok.injEq, Prod.mk.injEq] at h
    rw [← h.1]
    unfold copy_block
    have := write_sliceF_ok buffer offset (offset + max length 0) budget ws n b' hws
    rw [← this]

/-- Sanity of the fault model: when the budget suffices, the faulty loop
produces exactly the bytes, `literal_bytes` and `last_emitted` of the pure
loop. -/
theorem deltaLoopF_ok (md5 : List Nat → List Nat) (B : Nat) (src dst : List Nat)
    (sigs : List (Nat × BlockSignature)) :
    ∀ fuel idx le lit cs budget bytes litF leF b,
      deltaLoopF md5 B src dst sigs idx le lit cs budget fuel = .ok (bytes, litF, leF, b) →
      bytes = opsBytes (deltaLoop md5 B src dst sigs idx le lit cs fuel).1 ∧
      litF = (deltaLoop md5 B src dst sigs idx le lit cs fuel).2.1 ∧
      leF = (deltaLoop md5 B src dst sigs idx le lit cs fuel).2.2 := by
  intro fuel
  induction fuel with
  | zero =>
    intro idx le lit cs budget bytes litF leF b h
    rw [deltaLoopF] at h
    injection h with h
    simp only [Prod.mk.injEq] at h
    exact ⟨by rw [← h.1]; rfl, by rw [← h.2.1]; rfl, by rw [← h.2.2.1]; rfl⟩
  | succ fuel ih =>
    intro idx le lit cs budget bytes litF leF b h
    rw [deltaLoopF] at h
    by_cases hidx : idx + B ≤ src.length
    · rw [if_pos hidx] at h
      cases hfm : find_match sigs cs.digest (md5 (slice src idx (idx + B))) with
      | none =>
        simp only [hfm] at h
        by_cases hend : src.length ≤ idx + B
        · rw [if_pos hend] at h
          rw [deltaLoop, if_pos hidx, hfm, if_pos hend]
          simp only [Except.ok.injEq, Prod.mk.injEq] at h
          exact ⟨by rw [← h.1]; rfl, by rw [← h.2.1], by rw [← h.2.2.1]⟩
        · rw [if_neg hend] at h
          rw [deltaLoop, if_pos hidx, hfm, if_neg hend]
          exact ih (idx + 1) le lit _ budget bytes litF leF b h
      | some m =>
        simp only [hfm] at h
        rw [deltaLoop, if_pos hidx, hfm]
        by_cases hlt : le < idx
        · rw [if_pos hlt] at h
          cases hws : write_sliceF src le idx budget with
          | error e =>
            simp only [hws] at h
            exact Except.noConfusion h
          | ok t1 =>
            obtain ⟨litBytes, litCount, b1⟩ := t1
            simp only [hws] at h
            have hws_ok := write_sliceF_ok src le idx budget litBytes litCount b1 hws
            have hlb : litBytes = (write_slice src le idx).1 := by rw [← hws_ok]
            have hlc : litCount = (write_slice src le idx).2 := by rw [← hws_ok]
            cases hcb : copy_blockF dst m.offset m.length b1 with
            | error e =>
              simp only [hcb] at h
              exact Except.noConfusion h
            | ok t2 =>
              obtain ⟨copyBytes, b2⟩ := t2
              simp only [hcb] at h
              have hcb_ok := copy_blockF_ok dst m.offset m.length b1 copyBytes b2 hcb
              by_cases hcont : idx + B + B ≤ src.length
              · rw [if_pos hcont] at h
                simp only [if_pos hcont, if_pos hlt]
                cases hrec : deltaLoopF md5 B src dst sigs (idx + B) (idx + B)
                    (lit + litCount)
                    (RollingChecksum.init (slice src (idx + B) (idx + B + B)) (B : Int))
                    b2 fuel with
                | error e =>
                  simp only [hrec] at h
                  exact Except.noConfusion h
                | ok t3 =>
                  obtain ⟨rest, litR, leR, b3⟩ := t3
                  simp only [hrec] at h
                  simp only [Except.ok.injEq, Prod.mk.injEq] at h
                  obtain ⟨hrest_b, hrest_lit, hrest_le⟩ :=
                    ih (idx + B) (idx + B) (lit + litCount) _ b2 rest litR leR b3 hrec
                  refine ⟨?_, ?_, ?_⟩
                  · rw [← h.1, hlb, hcb_ok, hrest_b, hlc]
                    simp only [opsBytes_append, opsBytes_cons, opsBytes_nil,
                      DeltaOp.bytes, List.append_nil]
                  · rw [← h.2.1, hrest_lit, hlc]
                  · rw [← h.2.2.1, hrest_le, hlc]
              · rw [if_neg hcont] at h
                simp only [if_neg hcont, if_pos hlt]
                simp only [Except.ok.injEq, Prod.mk.injEq] at h
                refine ⟨?_, ?_, ?_⟩
                · rw [← h.1, hlb, hcb_ok]
                  simp only [opsBytes_append, opsBytes_cons, opsBytes_nil,
                    DeltaOp.bytes, List.append_nil]
                · rw [← h.2.1, hlc]
                · rw [← h.2.2.1]
        · rw [if_neg hlt] at h
          cases hcb : copy_blockF dst m.offset m.length budget with
          | error e =>
            simp only [hcb] at h
            exact Except.noConfusion h
          | ok t2 =>
            obtain ⟨copyBytes, b2⟩ := t2
            simp only [hcb] at h
            have hcb_ok := copy_blockF_ok dst m.offset m.length budget copyBytes b2 hcb
            by_cases hcont : idx + B + B ≤ src.length
            · rw [if_pos hcont] at h
              simp only [if_pos hcont, if_neg hlt]
              cases hrec : deltaLoopF md5 B src dst sigs (idx + B) (idx + B) (lit + 0)
                  (RollingChecksum.init (slice src (idx + B) (idx + B + B)) (B : Int))
                  b2 fuel with
              | error e =>
                simp only [hrec] at h
                exact Except.noConfusion h
              | ok t3 =>
                obtain ⟨rest, litR, leR, b3⟩ := t3
                simp only [hrec] at h
                simp only [Except.ok.injEq, Prod.mk.injEq] at h
                obtain ⟨hrest_b, hrest_lit, hrest_le⟩ :=
                  ih (idx + B) (idx + B) (lit + 0) _ b2 rest litR leR b3 hrec
                refine ⟨?_, ?_, ?_⟩
                · rw [← h.1, hcb_ok, hrest_b]
                  simp only [opsBytes_append, opsBytes_cons, opsBytes_nil,
                    DeltaOp.bytes, List.append_nil, List.nil_append, Nat.add_zero]
                · rw [← h.2.1, hrest_lit, Nat.add_zero]
                · rw [← h.2.2.1, hrest_le, Nat.add_zero]
            · rw [if_neg hcont] at h
              simp only [if_neg hcont, if_neg hlt]
              simp only [Except.ok.injEq, Prod.mk.injEq] at h
              refine ⟨?_, ?_, ?_⟩
              · rw [← h.1, hcb_ok]
                simp only [opsBytes_append, opsBytes_cons, opsBytes_nil,
                  DeltaOp.bytes, List.append_nil, List.nil_append]
              · rw [← h.2.1, Nat.add_zero]
              · rw [← h.2.2.1]
    · rw [if_neg hidx] at h
      rw [deltaLoop, if_neg hidx]
      injection h with h
      simp only [Prod.mk.injEq] at h
      exact ⟨by rw [← h.1]; rfl, by rw [← h.2.1], by rw [← h.2.2.1]⟩

/-- `_write_delta` under fault injection either succeeds with the temp file in
place, or raises with the temp file already unlinked. -/
theorem write_deltaF_cases (md5 : List Nat → List Nat) (B : Nat) (src dst : List Nat)
    (budget : Nat) :
    ((write_deltaF md5 B src dst budget).raised = false ∧
      (write_deltaF md5 B src dst budget).tempExists = true) ∨
    write_deltaF md5 B src dst budget = ⟨true, false, [], 0⟩ := by
  unfold write_deltaF
  cases write_deltaRaw md5 B src dst budget with
  | ok p => obtain ⟨bytes, lit⟩ := p; exact Or.inl ⟨rfl, rfl⟩
  | error e => exact Or.inr rfl

/-- Sanity of the fault model: a successful faulty `_write_delta` run writes
exactly the bytes and counts of the pure model. -/
theorem write_deltaRaw_ok (md5 : List Nat → List Nat) (B : Nat) (src dst : List Nat)
    (budget : Nat) (bytes : List Nat) (lit : Nat)
    (h : write_deltaRaw md5 B src dst budget = .ok (bytes, lit)) :
    bytes = opsBytes (write_delta md5 B src dst).1 ∧
    lit = (write_delta md5 B src dst).2 := by
  by_cases hfast : index_destination_blocks md5 B dst = [] ∨ src.length < B
  · simp only [write_deltaRaw, if_pos hfast] at h
    simp only [write_delta, if_pos hfast]
    cases hws : write_sliceF src 0 src.length budget with
    | error e =>
      simp only [hws] at h
      exact Except.noConfusion h
    | ok t =>
      obtain ⟨wsBytes, wsCount, b'⟩ := t
      simp only [hws] at h
      simp only [Except.ok.injEq, Prod.mk.injEq] at h
      have hok := write_sliceF_ok src 0 src.length budget wsBytes wsCount b' hws
      have h1 : wsBytes = (write_slice src 0 src.length).1 := by rw [← hok]
      have h2 : wsCount = (write_slice src 0 src.length).2 := by rw [← hok]
      constructor
      · rw [← h.1, h1]
        simp only [opsBytes_cons, opsBytes_nil, List.append_nil, DeltaOp.bytes]
      · rw [← h.2, h2]
  · simp only [write_deltaRaw, if_neg hfast] at h
    simp only [write_delta, if_neg hfast]
    cases hloop : deltaLoopF md5 B src dst (index_destination_blocks md5 B dst) 0 0 0
        (RollingChecksum.init (slice src 0 B) (B : Int)) budget (src.length + 1) with
    | error e =>
      simp only [hloop] at h
      exact Except.noConfusion h
    | ok t =>
      obtain ⟨loopBytes, loopLit, loopLe, b'⟩ := t
      simp only [hloop] at h
      obtain ⟨hlb, hll, hle⟩ :=
        deltaLoopF_ok md5 B src dst (index_destination_blocks md5 B dst)
          (src.length + 1) 0 0 0 _ budget loopBytes loopLit loopLe b' hloop
      by_cases htail : loopLe < src.length
      · rw [if_pos htail] at h
        rw [hle] at htail
        rw [if_pos htail]
        cases hws : write_sliceF src loopLe src.length b' with
        | error e =>
          simp only [hws] at h
          exact Except.noConfusion h
        | ok t2 =>
          obtain ⟨tail, tailCount, b''⟩ := t2
          simp only [hws] at h
          simp only [Except.ok.injEq, Prod.mk.injEq] at h
          have hok := write_sliceF_ok src loopLe src.length b' tail tailCount b'' hws
          have h1 : tail = (write_slice src loopLe src.length).1 := by rw [← hok]
          have h2 : tailCount = (write_slice src loopLe src.length).2 := by rw [← hok]
          constructor
          · rw [← h.1, hlb, h1, hle]
            simp only [opsBytes_append, opsBytes_cons, opsBytes_nil, List.append_nil,
              DeltaOp.bytes]
          · rw [← h.2, hll, h2, hle]
      · rw [if_neg htail] at h
        rw [hle] at htail
        rw [if_neg htail]
        simp only [Except.ok.injEq, Prod.mk.injEq] at h
        exact ⟨by rw [← h.1, hlb], by rw [← h.2, hll]⟩

/-- The faulty `sync_file` delta path either succeeds (destination replaced by
the temp bytes) or raises; whenever it raises, the temp file is gone and the
destination bytes are the original ones. -/
theorem sync_file_deltaF_raised (md5 : List Nat → List Nat) (B : Nat)
    (src d : List Nat) (budget : Nat) (rename_ok : Bool)
    (h : (sync_file_deltaF md5 B src d budget rename_ok).raised = true) :
    (sync_file_deltaF md5 B src d budget rename_ok).tempExists = false ∧
    (sync_file_deltaF md5 B src d budget rename_ok).destination = d := by
  rcases write_deltaF_cases md5 B src d budget with ⟨hr, _⟩ | heq
  · cases rename_ok with
    | true =>
      exfalso
      simp [sync_file_deltaF, hr] at h
    | false =>
      constructor <;> simp [sync_file_deltaF, hr]
  · constructor <;> simp [sync_file_deltaF, heq]

end strategy

theorem write_slice_modules_eq :
    sync.write_slice = strategy.write_slice := by
  funext buffer start stop
  unfold sync.write_slice strategy.write_slice
  suffices h : ∀ fuel start, sync.writeSliceChunks buffer start stop fuel
      = strategy.writeSliceChunks buffer start stop fuel by
    rw [h]
  intro fuel
  have hchunk : sync.LITERAL_CHUNK_SIZE = strategy.LITERAL_CHUNK_SIZE := rfl
  induction fuel with
  | zero => intro start; rfl
  | succ fuel ih =>
    intro start
    rw [sync.writeSliceChunks, strategy.writeSliceChunks]
    by_cases hlt : start < stop
    · simp only [if_pos hlt, hchunk, ih]
    · rw [if_neg hlt, if_neg hlt]

theorem copy_block_modules_eq :
    sync.copy_block = strategy.copy_block := by
  funext buffer offset length
  unfold sync.copy_block strategy.copy_block
  rw [write_slice_modules_eq]

theorem indexBlocksFrom_modules_eq (md5 : List Nat → List Nat) (B : Nat)
    (buffer : List Nat) :
    ∀ fuel offset, sync.indexBlocksFrom md5 B buffer offset fuel
      = (strategy.indexBlocksFrom md5 B buffer offset fuel).map
          (fun p => (p.1, toSyncSig p.2)) := by
  intro fuel
  induction fuel with
  | zero => intro offset; rfl
  | succ fuel ih =>
    intro offset
    rw [sync.indexBlocksFrom, strategy.indexBlocksFrom]
    by_cases hoff : offset < buffer.length
    · rw [if_pos hoff, if_pos hoff]
      by_cases hblock : slice buffer offset (min (offset + B) buffer.length) = []
      · rw [if_pos hblock, if_pos hblock]
        rfl
      · rw [if_neg hblock, if_neg hblock, List.map_cons, ih]
        rfl
    · rw [if_neg hoff, if_neg hoff]
      rfl

theorem index_modules_eq (md5 : List Nat → List Nat) (B : Nat) (buffer : List Nat) :
    sync.index_destination_blocks md5 B buffer
      = (strategy.index_destination_blocks md5 B buffer).map
          (fun p => (p.1, toSyncSig p.2)) := by
  unfold sync.index_destination_blocks strategy.index_destination_blocks
  by_cases hlen : buffer.length = 0
  · rw [if_pos hlen, if_pos hlen]
    rfl
  · rw [if_neg hlen, if_neg hlen]
    exact indexBlocksFrom_modules_eq md5 B buffer (buffer.length + 1) 0

theorem find_match_modules_eq (sigs : List (Nat × strategy.BlockSignature))
    (w : Nat) (strong : List Nat) :
    sync.find_match (sigs.map (fun p => (p.1, toSyncSig p.2))) w strong
      = (strategy.find_match sigs w strong).map toSyncSig := by
  induction sigs with
  | nil => rfl
  | cons p rest ih =>
    obtain ⟨pw, sig⟩ := p
    simp only [List.map_cons, sync.find_match, strategy.find_match]
    by_cases hc : pw = w ∧ sig.strong = strong
    · rw [if_pos hc, if_pos ⟨hc.1, hc.2⟩]
      rfl
    · rw [if_neg hc, if_neg (fun hc' => hc ⟨hc'.1, hc'.2⟩), ih]

theorem deltaLoop_modules_eq (md5 : List Nat → List Nat) (B : Nat)
    (src dst : List Nat) (sigs : List (Nat × strategy.BlockSignature)) :
    ∀ fuel idx le lit cs,
      sync.deltaLoop md5 B src dst (sigs.map (fun p => (p.1, toSyncSig p.2)))
          idx le lit cs fuel
        = strategy.deltaLoop md5 B src dst sigs idx le lit cs fuel := by
  intro fuel
  induction fuel with
  | zero => intro idx le lit cs; rfl
  | succ fuel ih =>
    intro idx le lit cs
    by_cases hidx : idx + B ≤ src.length
    · cases hm : strategy.find_match sigs cs.digest (md5 (slice src idx (idx + B))) with
      | none =>
        have hm' : sync.find_match (sigs.map (fun p => (p.1, toSyncSig p.2))) cs.digest
            (md5 (slice src idx (idx + B))) = none := by
          rw [find_match_modules_eq, hm]; rfl
        by_cases hend : src.length ≤ idx + B
        · rw [sync.deltaLoop, strategy.deltaLoop, if_pos hidx, if_pos hidx, hm', hm,
            if_pos hend, if_pos hend]
        · rw [sync.deltaLoop, strategy.deltaLoop, if_pos hidx, if_pos hidx, hm', hm,
            if_neg hend, if_neg hend]
          exact ih (idx + 1) le lit _
      | some m =>
        have hm' : sync.find_match (sigs.map (fun p => (p.1, toSyncSig p.2))) cs.digest
            (md5 (slice src idx (idx + B))) = some (toSyncSig m) := by
          rw [find_match_modules_eq, hm]; rfl
        rw [sync.deltaLoop, strategy.deltaLoop, if_pos hidx, if_pos hidx, hm', hm]
        have hoff : (toSyncSig m).offset = m.offset := rfl
        have hlen : (toSyncSig m).length = m.length := rfl
        by_cases hcont : idx + B + B ≤ src.length
        · simp only [if_pos hcont, hoff, hlen, write_slice_modules_eq,
            copy_block_modules_eq, ih (idx + B) (idx + B)]
        · simp only [if_neg hcont, hoff, hlen, write_slice_modules_eq,
            copy_block_modules_eq]
    · rw [sync.deltaLoop, strategy.deltaLoop, if_neg hidx, if_neg hidx]

theorem write_delta_modules_eq (md5 : List Nat → List Nat) (B : Nat)
    (src dst : List Nat) :
    sync.write_delta md5 B src dst = strategy.write_delta md5 B src dst := by
  have hnil : sync.index_destination_blocks md5 B dst = [] ↔
      strategy.index_destination_blocks md5 B dst = [] := by
    rw [index_modules_eq, List.map_eq_nil_iff]
  by_cases hfast : strategy.index_destination_blocks md5 B dst = [] ∨ src.length < B
  · have hfast' : sync.index_destination_blocks md5 B dst = [] ∨ src.length < B := by
      rcases hfast with h | h
      · exact Or.inl (hnil.mpr h)
      · exact Or.inr h
    simp only [sync.write_delta, strategy.write_delta, if_pos hfast, if_pos hfast',
      write_slice_modules_eq]
  · have hfast' : ¬ (sync.index_destination_blocks md5 B dst = [] ∨ src.length < B) := by
      intro hc
      rcases hc with h | h
      · exact hfast (Or.inl (hnil.mp h))
      · exact hfast (Or.inr h)
    simp only [sync.write_delta, strategy.write_delta]
    rw [if_neg hfast', if_neg hfast, index_modules_eq]
    simp only [deltaLoop_modules_eq md5 B src dst, write_slice_modules_eq]

theorem sync_file_modules_eq (md5 : List Nat → List Nat) (B : Nat)
    (src : List Nat) (destination : Option FsNode) :
    sync.DeltaSynchronizer.sync_file md5 B src destination
      = strategy.DeltaStrategy.sync_file md5 B src destination := by
  match destination with
  | some .symlink => rfl
  | none => rfl
  | some (.file d) =>
    simp only [sync.DeltaSynchronizer.sync_file, strategy.DeltaStrategy.sync_file,
      write_delta_modules_eq md5 B src d]

/-! ## The claims -/

/-- C1: for every source file and every destination (existing regular file or
absent), if `DeltaStrategy.sync_file` succeeds then the destination's bytes
afterwards equal the source's bytes exactly; equivalently, the byte sequence
emitted by `_write_delta` (literal spans interleaved with copied destination
blocks) concatenates to exactly the source buffer.  Stated for any
collision-free strong digest (MD5's role) and positive block size (enforced by
the constructor). -/
theorem claim_C1_delta_sync_restores_source (md5 : List Nat → List Nat)
    (hinj : Function.Injective md5) (B : Nat) (hB : 0 < B) (src : List Nat) :
    (∀ destination bytes stats,
      strategy.DeltaStrategy.sync_file md5 B src destination = .ok (bytes, stats) →
      bytes = src) ∧
    ∀ dst, opsBytes (strategy.write_delta md5 B src dst).1 = src :=
  ⟨fun destination bytes stats h =>
      strategy.sync_file_ok_bytes md5 hinj B hB src destination bytes stats h,
    fun dst => (strategy.write_delta_spec md5 hinj B hB src dst).1⟩

theorem claim_C1_witness :
    Function.Injective (id : List Nat → List Nat) ∧ 0 < 4 ∧
    strategy.DeltaStrategy.sync_file id 4 [1, 2, 3] (some (.file [9, 9]))
      = .ok ([1, 2, 3], ⟨3, 3, 0⟩) ∧
    ([1, 2, 3] : List Nat) = [1, 2, 3] ∧
    opsBytes (strategy.write_delta id 4 [1, 2, 3] [9, 9]).1 = [1, 2, 3] :=
  ⟨fun _ _ h => h, by decide, by rfl,
    (claim_C1_delta_sync_restores_source id (fun _ _ h => h) 4 (by decide) [1, 2, 3]).1
      (some (.file [9, 9])) [1, 2, 3] ⟨3, 3, 0⟩ (by rfl),
    (claim_C1_delta_sync_restores_source id (fun _ _ h => h) 4 (by decide) [1, 2, 3]).2
      [9, 9]⟩

/-- C2: rolling-checksum law.  For every byte buffer, window length `L ≥ 1` and
`k` with `k + L ≤ len(buffer)`, initialising `RollingChecksum` on
`buffer[0:L]` with block size `L` and performing `k` `roll` calls (with
`out = buffer[j]`, `in = buffer[j+L]`) yields the same `digest()` as a fresh
`RollingChecksum(buffer[k:k+L], L)`.  Byte values are unconstrained naturals,
so the wrap-forcing cases are included. -/
theorem claim_C2_rolling_checksum_law (buffer : List Nat) (L k : Nat)
    (hL : 1 ≤ L) (hk : k + L ≤ buffer.length) :
    (rollFrom (RollingChecksum.init (slice buffer 0 L) (L : Int)) buffer L k).digest
      = (RollingChecksum.init (slice buffer k (k + L)) (L : Int)).digest := by
  rw [rollFrom_eq_init buffer L hL k hk]

theorem claim_C2_witness :
    1 ≤ 2 ∧ 2 + 2 ≤ 5 ∧
    (rollFrom (RollingChecksum.init (slice [255, 0, 255, 1, 2] 0 2) 2)
        [255, 0, 255, 1, 2] 2 2).digest
      = (RollingChecksum.init (slice [255, 0, 255, 1, 2] 2 4) 2).digest :=
  ⟨by decide, by decide,
    claim_C2_rolling_checksum_law [255, 0, 255, 1, 2] 2 2 (by decide) (by decide)⟩

/-- C3: Scenario F (block-aligned shift).  With `block_size = 4`, destination
`b'ABCDEFGH'` and source `b'XYABCDEFGH'`, the scan emits the literal `XY` then
copies the blocks `ABCD` and `EFGH`; the sync succeeds with the destination
equal to the source and stats `total = 10, transferred = 2, reused = 8`. -/
theorem claim_C3_scenario_F (md5 : List Nat → List Nat)
    (hinj : Function.Injective md5) :
    strategy.write_delta md5 4 [88, 89, 65, 66, 67, 68, 69, 70, 71, 72]
        [65, 66, 67, 68, 69, 70, 71, 72]
      = ([.literal [88, 89], .copy [65, 66, 67, 68], .copy [69, 70, 71, 72]], 2) ∧
    strategy.DeltaStrategy.sync_file md5 4 [88, 89, 65, 66, 67, 68, 69, 70, 71, 72]
        (some (.file [65, 66, 67, 68, 69, 70, 71, 72]))
      = .ok ([88, 89, 65, 66, 67, 68, 69, 70, 71, 72], ⟨10, 2, 8⟩) := by
  constructor
  · rw [strategy.write_delta_hash_irrel md5 hinj 4 (by decide)]
    decide
  · rw [strategy.sync_file_hash_irrel md5 hinj 4 (by decide)]
    rfl

theorem claim_C3_witness :
    Function.Injective (id : List Nat → List Nat) ∧
    strategy.DeltaStrategy.sync_file id 4 [88, 89, 65, 66, 67, 68, 69, 70, 71, 72]
        (some (.file [65, 66, 67, 68, 69, 70, 71, 72]))
      = .ok ([88, 89, 65, 66, 67, 68, 69, 70, 71, 72], ⟨10, 2, 8⟩) :=
  ⟨fun _ _ h => h, (claim_C3_scenario_F id (fun _ _ h => h)).2⟩

/-- C4: accounting invariant.  `literal_bytes` returned by `_write_delta` is
exactly the summed length of the emitted literal spans, and every successful
delta sync of a source of length `N` records `total_bytes = N`,
`bytes_reused = max(N - bytes_transferred, 0)` and
`bytes_transferred + bytes_reused = total_bytes` (hence `≥`, with equality —
matches never overlap). -/
theorem claim_C4_accounting (md5 : List Nat → List Nat)
    (hinj : Function.Injective md5) (B : Nat) (hB : 0 < B) (src : List Nat) :
    (∀ dst, (strategy.write_delta md5 B src dst).2
        = litLen (strategy.write_delta md5 B src dst).1) ∧
    ∀ destination bytes stats,
      strategy.DeltaStrategy.sync_file md5 B src destination = .ok (bytes, stats) →
      stats.total_bytes = src.length ∧
      stats.bytes_reused = max (src.length - stats.bytes_transferred) 0 ∧
      stats.bytes_transferred + stats.bytes_reused = stats.total_bytes := by
  constructor
  · intro dst
    exact (strategy.write_delta_spec md5 hinj B hB src dst).2.1
  · intro destination bytes stats h
    rcases strategy.sync_file_ok_cases md5 B src destination bytes stats h with
      ⟨_, _, hs⟩ | ⟨d, _, h0, _, hs⟩ | ⟨d, _, _, _, _, hs⟩ | ⟨d, _, _, _, _, hs⟩
    · subst hs
      refine ⟨rfl, ?_, ?_⟩
      · show (0 : Nat) = max (src.length - src.length) 0
        omega
      · show src.length + 0 = src.length
        omega
    · subst hs
      refine ⟨h0.symm, ?_, ?_⟩
      · show (0 : Nat) = max (src.length - 0) 0
        omega
      · show (0 : Nat) + 0 = 0
        omega
    · subst hs
      refine ⟨rfl, ?_, ?_⟩
      · show src.length = max (src.length - 0) 0
        omega
      · show 0 + src.length = src.length
        omega
    · subst hs
      have hle := (strategy.write_delta_spec md5 hinj B hB src d).2.2
      refine ⟨rfl, rfl, ?_⟩
      show (strategy.write_delta md5 B src d).2
          + max (src.length - (strategy.write_delta md5 B src d).2) 0 = src.length
      omega

theorem claim_C4_witness :
    Function.Injective (id : List Nat → List Nat) ∧ 0 < 4 ∧
    (strategy.write_delta id 4 [7, 7, 7] [1]).2
      = litLen (strategy.write_delta id 4 [7, 7, 7] [1]).1 ∧
    strategy.DeltaStrategy.sync_file id 4 [7, 7, 7] (some (.file [1]))
      = .ok ([7, 7, 7], ⟨3, 3, 0⟩) ∧
    (3 : Nat) = 3 ∧ (0 : Nat) = max (3 - 3) 0 ∧ 3 + 0 = 3 := by
  refine ⟨fun _ _ h => h, by decide,
    (claim_C4_accounting id (fun _ _ h => h) 4 (by decide) [7, 7, 7]).1 [1], by rfl, ?_⟩
  have h := (claim_C4_accounting id (fun _ _ h => h) 4 (by decide) [7, 7, 7]).2
    (some (.file [1])) [7, 7, 7] ⟨3, 3, 0⟩ (by rfl)
  exact ⟨h.1, h.2.1, h.2.2⟩

/-- C5: index construction.  For every destination buffer and positive block
size the index equals its closed form — one signature per block offset
`0, B, 2B, …`, carrying `weak = RollingChecksum(block, len(block)).digest()`,
`strong = md5(block)`, the offset and the block length — the empty buffer
produces the empty index, and every indexed block is non-empty, at most `B`
long (shorter only when it is cut off by the end of the buffer), and lies
inside the buffer. -/
theorem claim_C5_index_partition (md5 : List Nat → List Nat) (B : Nat)
    (buffer : List Nat) (hB : 0 < B) :
    strategy.index_destination_blocks md5 B buffer = strategy.indexSpec md5 B buffer ∧
    (buffer = [] → strategy.index_destination_blocks md5 B buffer = []) ∧
    ∀ p ∈ strategy.index_destination_blocks md5 B buffer,
      0 < p.2.length ∧ p.2.length ≤ B ∧ p.2.offset + p.2.length ≤ buffer.length ∧
      (p.2.offset + B ≤ buffer.length → p.2.length = B) := by
  refine ⟨strategy.index_destination_blocks_eq md5 B buffer hB, ?_, ?_⟩
  · intro hnil
    subst hnil
    rfl
  · intro p hmem
    rw [strategy.index_destination_blocks_eq md5 B buffer hB] at hmem
    unfold strategy.indexSpec at hmem
    obtain ⟨i, hi, hentry⟩ := List.mem_map.1 hmem
    rw [List.mem_range] at hi
    have hoff : i * B < buffer.length := (strategy.lt_numBlocks_iff hB).1 hi
    subst hentry
    have hplen : (strategy.sigAt md5 B buffer (i * B)).2.length
        = (slice buffer (i * B) (i * B + B)).length := rfl
    have hpoff : (strategy.sigAt md5 B buffer (i * B)).2.offset = i * B := rfl
    have hlen : (slice buffer (i * B) (i * B + B)).length
        = min (i * B + B - i * B) (buffer.length - i * B) := length_slice buffer _ _
    refine ⟨?_, ?_, ?_, ?_⟩
    · rw [hplen, hlen]
      omega
    · rw [hplen, hlen]
      omega
    · rw [hpoff, hplen, hlen]
      omega
    · intro hfull
      rw [hpoff] at hfull
      rw [hplen, hlen]
      omega

theorem claim_C5_witness :
    0 < 2 ∧
    strategy.index_destination_blocks id 2 [10, 11, 12]
      = strategy.indexSpec id 2 [10, 11, 12] ∧
    ∀ p ∈ strategy.index_destination_blocks id 2 [10, 11, 12], 0 < p.2.length := by
  refine ⟨by decide, (claim_C5_index_partition id 2 [10, 11, 12] (by decide)).1, ?_⟩
  intro p hmem
  exact ((claim_C5_index_partition id 2 [10, 11, 12] (by decide)).2.2 p hmem).1

/-- C6: idempotence.  If a delta sync of `src` succeeded, leaving destination
bytes `d1`, then running `sync_file` again against that destination succeeds,
leaves the destination bit-identical (`d1`, which equals `src`), and records
`bytes_transferred = 0` and `bytes_reused = |src|`. -/
theorem claim_C6_idempotent (md5 : List Nat → List Nat)
    (hinj : Function.Injective md5) (B : Nat) (hB : 0 < B) (src : List Nat)
    (destination : Option FsNode) (d1 : List Nat) (s1 : SyncStats)
    (h : strategy.DeltaStrategy.sync_file md5 B src destination = .ok (d1, s1)) :
    strategy.DeltaStrategy.sync_file md5 B src (some (.file d1))
      = .ok (d1, ⟨src.length, 0, src.length⟩) := by
  have hd1 : d1 = src :=
    strategy.sync_file_ok_bytes md5 hinj B hB src destination d1 s1 h
  subst hd1
  simp only [strategy.DeltaStrategy.sync_file]
  by_cases h0 : d1.length = 0
  · rw [if_pos h0, List.length_eq_zero.mp h0]
    rfl
  · rw [if_neg h0]
    simp

theorem claim_C6_witness :
    Function.Injective (id : List Nat → List Nat) ∧ 0 < 4 ∧
    strategy.DeltaStrategy.sync_file id 4 [5, 6] none = .ok ([5, 6], ⟨2, 2, 0⟩) ∧
    strategy.DeltaStrategy.sync_file id 4 [5, 6] (some (.file [5, 6]))
      = .ok ([5, 6], ⟨2, 0, 2⟩) :=
  ⟨fun _ _ h => h, by decide, by rfl,
    claim_C6_idempotent id (fun _ _ h => h) 4 (by decide) [5, 6] none [5, 6]
      ⟨2, 2, 0⟩ (by rfl)⟩

/-- C7: symlink refusal.  For every source and every destination that is a
symbolic link, both the whole-copy and the delta strategy fail before
performing any write, and the destination node and stats ledger are left
untouched. -/
theorem claim_C7_symlink_refusal (md5 : List Nat → List Nat) (B : Nat)
    (src : List Nat) (st : FsState) (hlink : st.node = some .symlink) :
    strategy.DeltaStrategy.sync_file md5 B src st.node = .error () ∧
    strategy.FileCopierStrategy.sync_file src st.node = .error () ∧
    strategy.DeltaStrategy.run md5 B src st = st := by
  refine ⟨by rw [hlink]; rfl, by rw [hlink]; rfl, ?_⟩
  unfold strategy.DeltaStrategy.run
  rw [hlink]
  rfl

theorem claim_C7_witness :
    (FsState.mk (some .symlink) none).node = some .symlink ∧
    strategy.DeltaStrategy.sync_file id 4 [1] (FsState.mk (some .symlink) none).node
      = .error () ∧
    strategy.FileCopierStrategy.sync_file [1] (FsState.mk (some .symlink) none).node
      = .error () ∧
    strategy.DeltaStrategy.run id 4 [1] (FsState.mk (some .symlink) none)
      = FsState.mk (some .symlink) none :=
  ⟨rfl,
    (claim_C7_symlink_refusal id 4 [1] (FsState.mk (some .symlink) none) rfl).1,
    (claim_C7_symlink_refusal id 4 [1] (FsState.mk (some .symlink) none) rfl).2.1,
    (claim_C7_symlink_refusal id 4 [1] (FsState.mk (some .symlink) none) rfl).2.2⟩

/-- C8: error atomicity.  Under fault injection in the temp-file writes and the
final rename, whenever the delta path of `sync_file` raises, the temp file has
already been deleted and the original destination bytes are unchanged. -/
theorem claim_C8_error_atomicity (md5 : List Nat → List Nat) (B : Nat)
    (src d : List Nat) (budget : Nat) (rename_ok : Bool)
    (h : (strategy.sync_file_deltaF md5 B src d budget rename_ok).raised = true) :
    (strategy.sync_file_deltaF md5 B src d budget rename_ok).tempExists = false ∧
    (strategy.sync_file_deltaF md5 B src d budget rename_ok).destination = d :=
  strategy.sync_file_deltaF_raised md5 B src d budget rename_ok h

theorem claim_C8_witness :
    (strategy.sync_file_deltaF id 1 [1] [2] 0 true).raised = true ∧
    (strategy.sync_file_deltaF id 1 [1] [2] 0 true).tempExists = false ∧
    (strategy.sync_file_deltaF id 1 [1] [2] 0 true).destination = [2] :=
  ⟨by decide,
    (claim_C8_error_atomicity id 1 [1] [2] 0 true (by decide)).1,
    (claim_C8_error_atomicity id 1 [1] [2] 0 true (by decide)).2⟩

/-- C9: the two delta implementations shipped in the package are equivalent:
for every digest function, block size, source and destination,
`DeltaSynchronizer.sync_file` (`sync.py`, used by the CLI) and
`DeltaStrategy.sync_file` (`strategy.py`, exported by the package) produce the
same destination bytes and record the same stats, and the underlying
`_write_delta` implementations emit identical writes. -/
theorem claim_C9_engines_equivalent (md5 : List Nat → List Nat) (B : Nat)
    (src : List Nat) :
    (∀ destination, sync.DeltaSynchronizer.sync_file md5 B src destination
        = strategy.DeltaStrategy.sync_file md5 B src destination) ∧
    ∀ dst, sync.write_delta md5 B src dst = strategy.write_delta md5 B src dst :=
  ⟨fun destination => sync_file_modules_eq md5 B src destination,
    fun dst => write_delta_modules_eq md5 B src dst⟩

/-- C10: every stats entry the delta strategy records (missing-destination,
empty-source, identical-files and delta paths alike) satisfies
`bytes_saved = max(total_bytes - bytes_transferred, 0) = bytes_reused`. -/
theorem claim_C10_saved_eq_reused (md5 : List Nat → List Nat) (B : Nat)
    (src : List Nat) (destination : Option FsNode) (bytes : List Nat)
    (stats : SyncStats)
    (h : strategy.DeltaStrategy.sync_file md5 B src destination = .ok (bytes, stats)) :
    stats.bytes_saved = stats.bytes_reused := by
  rcases strategy.sync_file_ok_cases md5 B src destination bytes stats h with
    ⟨_, _, hs⟩ | ⟨d, _, _, _, hs⟩ | ⟨d, _, _, _, _, hs⟩ | ⟨d, _, _, _, _, hs⟩ <;>
    subst hs <;> simp only [SyncStats.bytes_saved] <;> omega

theorem claim_C10_witness :
    strategy.DeltaStrategy.sync_file id 4 [1, 2] none = .ok ([1, 2], ⟨2, 2, 0⟩) ∧
    (SyncStats.mk 2 2 0).bytes_saved = (SyncStats.mk 2 2 0).bytes_reused :=
  ⟨by rfl,
    claim_C10_saved_eq_reused id 4 [1, 2] none [1, 2] ⟨2, 2, 0⟩ (by rfl)⟩

end Pysync
